import Mathlib

/-!
Verification of dwmblocks: the capture loop, the differ/assembler, the tick schedule
and click dispatch.

A shallow embedding of `src/dwmblocks.c`.

* Bytes (`char`) are natural numbers; `'\n'` is `10` and `'\0'` is `0`.
* A `char` array is a `List Nat`; a pointer into it is the array together with an index.
* The block table `blocks[]` (from `blocks.h`) is the list of its entries before the
  entry whose `pathu` is `NULL`, which ends every loop over the table.
* `delimiter` (from `blocks.h`) is a parameter: the bytes of the array, so that
  `DELIMITERLENGTH`, which is `sizeof delimiter`, is `delimiter.length`.
* What a child process prints, and how the pipe hands it over, are parameters of
  `updateblock`.
-/

namespace Dwmblocks

/-- The constant `#define CMDOUTLENGTH 50`. -/
def CMDOUTLENGTH : Nat := 50

/-- The constant `#define STATUSLENGTH 256`. -/
def STATUSLENGTH : Nat := 256

/-- The constant `#define NILL INT_MIN`. -/
def NILL : Int := -2147483648

/-- The `Block` struct. `pathc = none` is a `NULL` click command. The two buffers are
declared `char [CMDOUTLENGTH + 1]`. -/
structure Block where
  pathu : String
  pathc : Option String
  interval : Int
  signal : Int
  curcmdout : List Nat
  prvcmdout : List Nat
deriving DecidableEq

/-- The mutable globals `updatestatus` works on: the block table and `statustext`
(declared `char [STATUSLENGTH + DELIMITERLENGTH]`). -/
structure State where
  blocks : List Block
  statustext : List Nat
deriving DecidableEq

/-- The array `statustext` while `updatestatus` runs, together with the offsets that
were stored to (most recent first). A store past the end of the array is recorded in
`writes` and leaves `bytes` alone. -/
structure Text where
  bytes : List Nat
  writes : List Nat
deriving DecidableEq

/-- The store `statustext[off] = val`. -/
def Text.poke (t : Text) (off val : Nat) : Text :=
  ⟨t.bytes.set off val, off :: t.writes⟩

/-- The call `memcpy(statustext + s, src, sizeof src)`, byte by byte. -/
def memcpy : Text → Nat → List Nat → Text
  | t, _, [] => t
  | t, s, d :: ds => memcpy (t.poke s d) (s + 1) ds

/-- Conversion of an `int` to `char`, as in `*(s++) = block->signal`: the low eight bits. -/
def toByte (n : Int) : Nat := (n % 256).toNat

/-- The scan `for (; *c == *p && *c != '\n' && *c != '\0'; c++, p++);` started at the
head of both buffers: the value of `c - block->curcmdout` when it stops. A read past the
end of a buffer (undefined in C) stops the scan, as a NUL byte would. -/
def agree : List Nat → List Nat → Nat
  | c :: cs, p :: ps => if c = p ∧ c ≠ 10 ∧ c ≠ 0 then agree cs ps + 1 else 0
  | _, _ => 0

/-- The loop `for (; *p = *c, *c != '\n' && *c != '\0'; c++, p++) *(s++) = *c;`.
The first argument is `curcmdout` from index `j` on, `prv` is all of `prvcmdout`.
Returns the index at which `c` stops, `prvcmdout`, `statustext` and `s`. A read past
the end of `curcmdout` (undefined in C) is taken as a NUL byte. -/
def copyOut : List Nat → Nat → List Nat → Text → Nat → Nat × List Nat × Text × Nat
  | [], j, prv, t, s => (j, prv.set j 0, t, s)
  | c :: cs, j, prv, t, s =>
      if c ≠ 10 ∧ c ≠ 0 then copyOut cs (j + 1) (prv.set j c) (t.poke s c) (s + 1)
      else (j, prv.set j c, t, s)

/-- The body of the updating loop from the label `update:` on, entered with
`c = block->curcmdout + i` and `p = block->prvcmdout + i`. -/
def updateFrom (delimiter : List Nat) (b : Block) (i : Nat) (t : Text) (s : Nat) :
    Block × Text × Nat :=
  match copyOut (b.curcmdout.drop i) i b.prvcmdout t s with
  | (j, prv, t1, s1) =>
    if j = 0 then
      ({ b with prvcmdout := prv }, t1, s1)
    else if b.pathc.isSome then
      ({ b with prvcmdout := prv },
        memcpy (t1.poke s1 (toByte b.signal)) (s1 + 1) delimiter,
        s1 + 1 + delimiter.length)
    else
      ({ b with prvcmdout := prv }, memcpy t1 s1 delimiter, s1 + delimiter.length)

/-- The updating half of `updatestatus`: the second `for` loop, entered at its top. -/
def updatingHalf (delimiter : List Nat) : List Block → Text → Nat → List Block × Text × Nat
  | [], t, s => ([], t, s)
  | b :: bs, t, s =>
    match updateFrom delimiter b 0 t s with
    | (b1, t1, s1) =>
      match updatingHalf delimiter bs t1 s1 with
      | (bs1, t2, s2) => (b1 :: bs1, t2, s2)

/-- The checking half of `updatestatus`. `none` is `return 0`; `some` is the state in
which the updating loop ends after `goto update`. -/
def checkingHalf (delimiter : List Nat) :
    List Block → Text → Nat → Option (List Block × Text × Nat)
  | [], _, _ => none
  | b :: bs, t, s =>
    if b.curcmdout.getD (agree b.curcmdout b.prvcmdout) 0
        ≠ b.prvcmdout.getD (agree b.curcmdout b.prvcmdout) 0 then
      match updateFrom delimiter b (agree b.curcmdout b.prvcmdout) t
          (s + agree b.curcmdout b.prvcmdout) with
      | (b1, t1, s1) =>
        match updatingHalf delimiter bs t1 s1 with
        | (bs1, t2, s2) => some (b1 :: bs1, t2, s2)
    else if agree b.curcmdout b.prvcmdout = 0 then
      (checkingHalf delimiter bs t (s + agree b.curcmdout b.prvcmdout)).map
        (fun r => (b :: r.1, r.2))
    else if b.pathc.isSome then
      (checkingHalf delimiter bs t
        (s + agree b.curcmdout b.prvcmdout + 1 + delimiter.length)).map
        (fun r => (b :: r.1, r.2))
    else
      (checkingHalf delimiter bs t
        (s + agree b.curcmdout b.prvcmdout + delimiter.length)).map
        (fun r => (b :: r.1, r.2))

/-- What one call of `updatestatus` gives: the `int` it returns, the globals afterwards,
and the offsets of `statustext` it stored to (most recent first). -/
structure Outcome where
  ret : Int
  state : State
  writes : List Nat
deriving DecidableEq

/-- The function `updatestatus()`. -/
def updatestatus (delimiter : List Nat) (σ : State) : Outcome :=
  match checkingHalf delimiter σ.blocks ⟨σ.statustext, []⟩ 0 with
  | none => ⟨0, σ, []⟩
  | some (bs, t, s) =>
    if s ≠ 0 then
      ⟨1, ⟨bs, (t.poke (s - delimiter.length) 0).bytes⟩,
        (t.poke (s - delimiter.length) 0).writes⟩
    else
      ⟨1, ⟨bs, (t.poke s 0).bytes⟩, (t.poke s 0).writes⟩

/-- The number of bytes one `read(fd, buf, req)` on the pipe returns when `avail` bytes
of the child's output are still to come and the pipe has `ready` of them at hand:
`0` at end of file, otherwise between `1` and `req`. -/
def readCount (ready avail req : Nat) : Nat := min (max ready 1) (min avail req)

/-- The kernel's copy of the bytes read into the caller's buffer at index `k`. -/
def store : List Nat → Nat → List Nat → List Nat
  | buf, _, [] => buf
  | buf, k, x :: xs => store (buf.set k x) (k + 1) xs

/-- The parent's loop in `updateblock`:
`do rd = read(fd[0], block->curcmdout + trd, CMDOUTLENGTH - trd);
 while (rd > 0 && (trd += rd) < CMDOUTLENGTH);`
`sched` lists what the pipe has at hand at each successive `read`, `pipe` is the output
still to come. The first argument bounds the number of `read` calls; `none` means the
bound was hit. Returns `curcmdout` and `trd`. -/
def readLoop : Nat → List Nat → List Nat → List Nat → Nat → Option (List Nat × Nat)
  | 0, _, _, _, _ => none
  | fuel + 1, sched, pipe, buf, trd =>
    if 0 < readCount (sched.headD 0) pipe.length (CMDOUTLENGTH - trd) then
      if trd + readCount (sched.headD 0) pipe.length (CMDOUTLENGTH - trd) < CMDOUTLENGTH then
        readLoop fuel sched.tail
          (pipe.drop (readCount (sched.headD 0) pipe.length (CMDOUTLENGTH - trd)))
          (store buf trd (pipe.take (readCount (sched.headD 0) pipe.length (CMDOUTLENGTH - trd))))
          (trd + readCount (sched.headD 0) pipe.length (CMDOUTLENGTH - trd))
      else
        some
          (store buf trd
            (pipe.take (readCount (sched.headD 0) pipe.length (CMDOUTLENGTH - trd))),
          trd + readCount (sched.headD 0) pipe.length (CMDOUTLENGTH - trd))
    else
      some (buf, trd)

/-- The function `updateblock(block, sigval)`, parent side, when `pipe`, `fork` and
`read` succeed: `out` is everything the child writes to its standard output. Every `read` that does
not end the loop adds at least one byte, so `CMDOUTLENGTH` calls are enough. -/
def updateblock (sched out : List Nat) (b : Block) : Option Block :=
  (readLoop CMDOUTLENGTH sched out b.curcmdout 0).map
    (fun r => { b with curcmdout := r.1 })

/-- The content of a block as `updatestatus` reads it: the bytes of the buffer before
the first newline or NUL. -/
def content (buf : List Nat) : List Nat := buf.takeWhile (fun c => c ≠ 10 ∧ c ≠ 0)

/-- The published line: the bytes of `statustext` before its first NUL. -/
def published (statustext : List Nat) : List Nat := statustext.takeWhile (fun c => c ≠ 0)

/-- The stretch of the line one block accounts for: nothing when its content is empty,
otherwise the content, one marker byte when the block has a click command, and the
delimiter. -/
def width (delimiter : List Nat) (b : Block) : Nat :=
  if content b.curcmdout = [] then 0
  else if b.pathc.isSome then (content b.curcmdout).length + 1 + delimiter.length
  else (content b.curcmdout).length + delimiter.length

/-- The sum of the widths of the blocks of a table (the `T` of the buffer bound). -/
def lineEnd (delimiter : List Nat) (bs : List Block) : Nat :=
  (bs.map (width delimiter)).sum

/-- The bytes one block contributes to the line, by the reference assembly. -/
def piece (delimiter : List Nat) (b : Block) : List Nat :=
  if content b.curcmdout = [] then []
  else if b.pathc.isSome then content b.curcmdout ++ [toByte b.signal] ++ delimiter
  else content b.curcmdout ++ delimiter

/-- The reference assembly of the line: the pieces in table order with the final
delimiter removed. -/
def assembly (delimiter : List Nat) (bs : List Block) : List Nat :=
  (bs.map (piece delimiter)).flatten.take
    ((bs.map (piece delimiter)).flatten.length - delimiter.length)

/-- Agreement of a block: `prvcmdout` and `curcmdout` hold the same bytes up to and
including the first newline or NUL of `curcmdout`. -/
def AgreesThrough (b : Block) : Prop :=
  (content b.curcmdout).length < b.curcmdout.length ∧
    b.prvcmdout.take ((content b.curcmdout).length + 1)
      = b.curcmdout.take ((content b.curcmdout).length + 1)

instance (b : Block) : Decidable (AgreesThrough b) := by
  unfold AgreesThrough; infer_instance

/-- Both buffers of the block have `CMDOUTLENGTH + 1` bytes with a NUL in the last. -/
def Terminated (b : Block) : Prop :=
  b.curcmdout.length = CMDOUTLENGTH + 1 ∧ b.curcmdout.getD CMDOUTLENGTH 1 = 0 ∧
    b.prvcmdout.length = CMDOUTLENGTH + 1 ∧ b.prvcmdout.getD CMDOUTLENGTH 1 = 0

instance (b : Block) : Decidable (Terminated b) := by
  unfold Terminated; infer_instance

/-- The first-run loop of `statusloop`,
`for (block = blocks; block->pathu; block++) if (block->interval >= 0) updateblock(block, NILL);`
as the calls of `updateblock` it makes, in order: table index of the block and `sigval`.
`k` is the table index of the head of the list. -/
def firstRun : List Block → Nat → List (Nat × Int)
  | [], _ => []
  | b :: bs, k =>
    if b.interval ≥ 0 then (k, NILL) :: firstRun bs (k + 1) else firstRun bs (k + 1)

/-- The `for` loop over the table in one round of the main loop, with counter `i`:
`if (block->interval > 0 && i % block->interval == 0) updateblock(block, NILL);`.
C's `%` on `int` truncates, which is `Int.tmod`. -/
def mainPass (i : Int) : List Block → Nat → List (Nat × Int)
  | [], _ => []
  | b :: bs, k =>
    if b.interval > 0 ∧ Int.tmod i b.interval = 0 then (k, NILL) :: mainPass i bs (k + 1)
    else mainPass i bs (k + 1)

/-- The value an `int` takes when the mathematical result is `x`: the wrap to 32 bits
in two's complement. C leaves signed overflow undefined; the wrap is what the
increment does on the machines the program runs on. -/
def wrapInt (x : Int) : Int := (x + 2147483648) % 4294967296 - 2147483648

/-- The `int` counter `i` of the main loop in its round number `k` (counted from `0`):
`i = 1` before the loop, `i++` after each round. -/
def counter : Nat → Int
  | 0 => 1
  | k + 1 => wrapInt (counter k + 1)

/-- The calls of `updateblock` that `statusloop` makes in its pass number `tick`: pass
`0` is the first run, pass `n + 1` is round `n` of the main loop. -/
def statusloop (blocks : List Block) : Nat → List (Nat × Int)
  | 0 => firstRun blocks 0
  | n + 1 => mainPass (counter n) blocks 0

/-- The child that `buttonhandler` forks for a block. The child calls
`execv(arg[0], arg)` with `arg = { block->pathc, button, NULL }`: `path` is
`block->pathc` (`none` for `NULL`) and `button` holds the bytes of the array `button`. -/
structure Child where
  path : Option String
  button : List Nat
deriving DecidableEq

/-- The function `buttonhandler`, as the children forked, in order (every `fork` succeeding):
`sig = sival_int >> 8`; for each block with `block->signal == sig` a child with
`button = { '0' + (sival_int & 0xff), '\0' }`. -/
def buttonhandler : List Block → Int → List Child
  | [], _ => []
  | b :: bs, sival =>
    if b.signal = sival >>> 8 then
      ⟨b.pathc, [toByte (48 + sival % 256), 0]⟩ :: buttonhandler bs sival
    else buttonhandler bs sival

/-- The string a `char` array holds: its bytes before the first NUL. -/
def cstring (a : List Nat) : List Nat := a.takeWhile (fun c => c ≠ 0)

/-- A number written in decimal, as bytes. -/
def decimal (n : Nat) : List Nat := (Nat.toDigits 10 n).map Char.toNat

/-- A `char [CMDOUTLENGTH + 1]` buffer that starts with the given bytes and is zero
after them. -/
def buffer (xs : List Nat) : List Nat :=
  xs ++ List.replicate (CMDOUTLENGTH + 1 - xs.length) 0

/-- A block as it is when the program starts: both buffers zero. -/
def freshBlock (pathu : String) (pathc : Option String) (interval signal : Int) : Block :=
  ⟨pathu, pathc, interval, signal, buffer [], buffer []⟩

/-- The call of `updateblock` on entry `k` of the table, the child writing `out`; the state is left
alone when there is no such entry. -/
def runBlock (k : Nat) (sched out : List Nat) (σ : State) : Option State :=
  match σ.blocks.get? k with
  | none => some σ
  | some b => (updateblock sched out b).map (fun b1 => { σ with blocks := σ.blocks.set k b1 })

/-! ## Tables and states used in the examples -/

/-- The delimiter of the examples, `{ ' ', '|', ' ' }`. -/
def barDelimiter : List Nat := [32, 124, 32]

/-- The state at program start for a table of two blocks without click commands: the
first is run once at startup, the second on every tick. -/
def twoBlocks : State :=
  ⟨[freshBlock "/bin/first" none 0 0, freshBlock "/bin/second" none 1 0],
    List.replicate (STATUSLENGTH + barDelimiter.length) 0⟩

/-- A state in agreement: the buffers of each block differ only after the first
newline of `curcmdout`. The second block has a click command. -/
def settled : State :=
  ⟨[⟨"/bin/first", none, 0, 7, buffer [97, 98, 10], buffer [97, 98, 10, 122, 122]⟩,
    ⟨"/bin/second", some "/bin/click", 5, 3, buffer [99, 10, 100], buffer [99, 10]⟩],
    [97, 98, 32, 124, 32, 99, 3, 0, 124, 32] ++ List.replicate 249 0⟩

/-- A state after two captures and before the pass that takes them up: the first block
changed in its second byte, the second went from empty to `"mem"`. -/
def pending : State :=
  ⟨[⟨"/bin/first", none, 0, 7, buffer [97, 120, 10], buffer [97, 98, 10]⟩,
    ⟨"/bin/second", some "/bin/click", 5, 3, buffer [109, 101, 109, 10], buffer []⟩],
    [97, 98, 0, 124, 32] ++ List.replicate 254 0⟩

/-- A block without a click command and with a non-zero `signal`, holding `"hi"`. -/
def plainBlock : Block :=
  ⟨"/bin/first", none, 0, 7, buffer [104, 105, 10], buffer [104, 105, 10]⟩

/-- A block without a click command and with a non-zero `signal`, whose content went
from `"MEM:50%"` to `"MEM:60%"`: the checking scan stops at index `4`. -/
def changedBlock : Block :=
  ⟨"/bin/mem", none, 5, 7, buffer [77, 69, 77, 58, 54, 48, 37, 10],
    buffer [77, 69, 77, 58, 53, 48, 37, 10]⟩

/-- The array `statustext` after the line `"MEM:50%"` was built, with bytes `1` where
nothing was stored yet. -/
def memLine : Text :=
  ⟨[77, 69, 77, 58, 53, 48, 37, 0, 124, 32, 1, 1], []⟩

/-- A block with a click command, holding `"hi"`. -/
def clickBlock : Block :=
  ⟨"/bin/second", some "/bin/click", 5, 3, buffer [104, 105, 10], buffer [104, 105, 10]⟩

/-- An output of 62 bytes with a NUL as its second byte and no newline. -/
def longOutput : List Nat := [97, 0] ++ List.replicate 60 98

/-- A block whose last capture was `"hello\n"`. -/
def helloBlock : Block :=
  ⟨"/bin/first", none, 1, 0, buffer [104, 101, 108, 108, 111, 10], buffer []⟩

/-- The table of the click scenario: slot `3` is a block with click command `vol.sh`. -/
def volTable : List Block :=
  [freshBlock "/bin/cpu" none 0 0, freshBlock "/bin/vol" (some "vol.sh") 5 3]

/-- A table in which slot `3` is a block without a click command. -/
def plainTable : List Block :=
  [freshBlock "/bin/date" none 1 3]

/-- A table with intervals `-1`, `0` and `5`. -/
def mixedTable : List Block :=
  [freshBlock "/bin/a" none (-1) 0, freshBlock "/bin/b" none 0 0,
    freshBlock "/bin/c" none 5 0]

/-- A table of one block with interval `3`. -/
def thirdsTable : List Block :=
  [freshBlock "/bin/c" none 3 0]

/-! # Theorems -/

/-! ## Lists as buffers -/

theorem content_cons (c : Nat) (cs : List Nat) :
    content (c :: cs) = if c ≠ 10 ∧ c ≠ 0 then c :: content cs else [] := by
  unfold content
  by_cases h : c ≠ 10 ∧ c ≠ 0
  · simp [List.takeWhile_cons, h]
  · rw [if_neg h]
    simp only [List.takeWhile_cons]
    simp [h]

/-- The scan of the checking half never runs past the content of `curcmdout`. -/
theorem agree_le_content (c p : List Nat) : agree c p ≤ (content c).length := by
  induction c generalizing p with
  | nil => simp [agree]
  | cons x xs ih =>
    cases p with
    | nil => simp [agree]
    | cons y ys =>
      rw [content_cons]
      simp only [agree]
      by_cases h : x = y ∧ x ≠ 10 ∧ x ≠ 0
      · rw [if_pos h, if_pos h.2]
        simpa using ih ys
      · rw [if_neg h]; omega

/-- The two buffers hold the same bytes over the scanned part. -/
theorem agree_take (c p : List Nat) : p.take (agree c p) = c.take (agree c p) := by
  induction c generalizing p with
  | nil => simp [agree]
  | cons x xs ih =>
    cases p with
    | nil => simp [agree]
    | cons y ys =>
      simp only [agree]
      by_cases h : x = y ∧ x ≠ 10 ∧ x ≠ 0
      · rw [if_pos h]
        simp [ih ys, h.1]
      · rw [if_neg h]; simp

/-- When the scan stops on equal bytes it has reached the end of the content. -/
theorem agree_eq_content (c p : List Nat)
    (h : c.getD (agree c p) 0 = p.getD (agree c p) 0) :
    agree c p = (content c).length := by
  induction c generalizing p with
  | nil => simp [agree, content]
  | cons x xs ih =>
    cases p with
    | nil =>
      simp only [agree] at h ⊢
      rw [content_cons]
      simp at h
      simp [h]
    | cons y ys =>
      rw [content_cons]
      simp only [agree] at h ⊢
      by_cases hxy : x = y ∧ x ≠ 10 ∧ x ≠ 0
      · rw [if_pos hxy] at h ⊢
        rw [if_pos hxy.2]
        simp only [List.getD_cons_succ] at h
        simp [ih ys h]
      · rw [if_neg hxy] at h ⊢
        simp at h
        have : ¬ (x ≠ 10 ∧ x ≠ 0) := fun h2 => hxy ⟨h, h2⟩
        rw [if_neg this]; rfl

/-- The content of what is left of a buffer after skipping part of its content. -/
theorem content_drop (c : List Nat) (i : Nat) (h : i ≤ (content c).length) :
    content (c.drop i) = (content c).drop i := by
  induction c generalizing i with
  | nil => simp [content]
  | cons x xs ih =>
    cases i with
    | zero => simp
    | succ k =>
      rw [content_cons] at h ⊢
      by_cases hx : x ≠ 10 ∧ x ≠ 0
      · rw [if_pos hx] at h ⊢
        simp only [List.drop_succ_cons]
        exact ih k (by simpa using h)
      · rw [if_neg hx] at h
        simp at h

theorem set_eq_splice (l : List Nat) (k v : Nat) (h : k < l.length) :
    l.set k v = l.take k ++ v :: l.drop (k + 1) := by
  induction l generalizing k with
  | nil => simp at h
  | cons x xs ih =>
    cases k with
    | zero => simp
    | succ k => simp [ih k (by simpa using h)]

theorem take_set_succ (l : List Nat) (k v : Nat) (h : k < l.length) :
    (l.set k v).take (k + 1) = l.take k ++ [v] := by
  rw [set_eq_splice l k v h]
  have hk : (l.take k).length = k := by simp; omega
  rw [List.take_append_eq_append_take]
  simp [hk]

/-! ## The copy loop of the updating half -/

theorem copyOut_index (rest : List Nat) (j : Nat) (prv : List Nat) (t : Text) (s : Nat) :
    (copyOut rest j prv t s).1 = j + (content rest).length := by
  induction rest generalizing j prv t s with
  | nil => simp [copyOut, content]
  | cons c cs ih =>
    rw [content_cons]
    simp only [copyOut]
    by_cases h : c ≠ 10 ∧ c ≠ 0
    · rw [if_pos h, if_pos h, ih]; simp; omega
    · rw [if_neg h, if_neg h]; simp

theorem copyOut_offset (rest : List Nat) (j : Nat) (prv : List Nat) (t : Text) (s : Nat) :
    (copyOut rest j prv t s).2.2.2 = s + (content rest).length := by
  induction rest generalizing j prv t s with
  | nil => simp [copyOut, content]
  | cons c cs ih =>
    rw [content_cons]
    simp only [copyOut]
    by_cases h : c ≠ 10 ∧ c ≠ 0
    · rw [if_pos h, if_pos h, ih]; simp; omega
    · rw [if_neg h, if_neg h]; simp

theorem copyOut_writes (rest : List Nat) (j : Nat) (prv : List Nat) (t : Text) (s w : Nat) :
    w ∈ (copyOut rest j prv t s).2.2.1.writes ↔
      w ∈ t.writes ∨ (s ≤ w ∧ w < s + (content rest).length) := by
  induction rest generalizing j prv t s with
  | nil => simp [copyOut, content]
  | cons c cs ih =>
    rw [content_cons]
    simp only [copyOut]
    by_cases h : c ≠ 10 ∧ c ≠ 0
    · rw [if_pos h, if_pos h, ih]
      simp only [Text.poke, List.mem_cons, List.length_cons]
      constructor
      · rintro ((h1 | h1) | h1)
        · right; omega
        · left; exact h1
        · right; omega
      · rintro (h1 | h1)
        · left; right; exact h1
        · by_cases hw : w = s
          · left; left; exact hw
          · right; omega
    · rw [if_neg h, if_neg h]; simp

theorem copyOut_bytes_length (rest : List Nat) (j : Nat) (prv : List Nat) (t : Text) (s : Nat) :
    (copyOut rest j prv t s).2.2.1.bytes.length = t.bytes.length := by
  induction rest generalizing j prv t s with
  | nil => simp [copyOut]
  | cons c cs ih =>
    simp only [copyOut]
    by_cases h : c ≠ 10 ∧ c ≠ 0
    · rw [if_pos h, ih]; simp [Text.poke]
    · rw [if_neg h]

theorem copyOut_bytes (rest : List Nat) (j : Nat) (prv : List Nat) (t : Text) (s : Nat)
    (hfit : s + (content rest).length ≤ t.bytes.length) :
    (copyOut rest j prv t s).2.2.1.bytes
      = t.bytes.take s ++ content rest ++ t.bytes.drop (s + (content rest).length) := by
  induction rest generalizing j prv t s with
  | nil => simp [copyOut, content]
  | cons c cs ih =>
    rw [content_cons] at hfit ⊢
    simp only [copyOut]
    by_cases h : c ≠ 10 ∧ c ≠ 0
    · rw [if_pos h] at hfit ⊢
      rw [if_pos h]
      simp only [List.length_cons] at hfit
      have hs : s < t.bytes.length := by omega
      rw [ih]
      · simp only [Text.poke, List.length_cons]
        rw [take_set_succ _ _ _ hs, set_eq_splice _ _ _ hs]
        have hk : (t.bytes.take s).length = s := by simp; omega
        rw [List.drop_append_eq_append_drop]
        have e1 : s + 1 + (content cs).length - (List.take s t.bytes).length
            = (content cs).length + 1 := by rw [hk]; omega
        have e2 : List.drop (s + 1 + (content cs).length) (List.take s t.bytes) = [] := by
          apply List.drop_eq_nil_of_le; rw [hk]; omega
        rw [e1, e2]
        simp only [List.drop_succ_cons, List.nil_append, List.append_assoc,
          List.singleton_append, List.drop_drop]
        have e3 : s + 1 + (content cs).length = s + ((content cs).length + 1) := by omega
        rw [e3]
      · simp only [Text.poke, List.length_set]; omega
    · rw [if_neg h, if_neg h]; simp

/-- The copy loop makes `prvcmdout` equal to `curcmdout` from where it starts through
the terminating byte. -/
theorem copyOut_prv (rest : List Nat) (j : Nat) (prv : List Nat) (t : Text) (s : Nat)
    (hterm : (content rest).length < rest.length)
    (hlen : j + (content rest).length < prv.length) :
    (copyOut rest j prv t s).2.1.take (j + (content rest).length + 1)
      = prv.take j ++ rest.take ((content rest).length + 1) := by
  induction rest generalizing j prv t s with
  | nil => simp at hterm
  | cons c cs ih =>
    rw [content_cons] at hterm hlen ⊢
    simp only [copyOut]
    by_cases h : c ≠ 10 ∧ c ≠ 0
    · rw [if_pos h] at hterm hlen ⊢
      rw [if_pos h]
      simp only [List.length_cons] at hterm hlen ⊢
      have e : j + ((content cs).length + 1) + 1 = j + 1 + (content cs).length + 1 := by omega
      rw [e, ih (j + 1) (prv.set j c) (t.poke s c) (s + 1) (by omega)
        (by rw [List.length_set]; omega)]
      rw [take_set_succ _ _ _ (by omega)]
      simp
    · rw [if_neg h] at hterm hlen ⊢
      rw [if_neg h]
      simp only [List.length_nil, Nat.add_zero] at hlen ⊢
      rw [take_set_succ _ _ _ hlen]
      simp

/-! ## Copying the delimiter -/

theorem memcpy_writes (t : Text) (s : Nat) (ds : List Nat) (w : Nat) :
    w ∈ (memcpy t s ds).writes ↔ w ∈ t.writes ∨ (s ≤ w ∧ w < s + ds.length) := by
  induction ds generalizing t s with
  | nil => simp [memcpy]
  | cons d ds ih =>
    simp only [memcpy, ih, Text.poke, List.mem_cons, List.length_cons]
    constructor
    · rintro ((h1 | h1) | h1)
      · right; omega
      · left; exact h1
      · right; omega
    · rintro (h1 | h1)
      · left; right; exact h1
      · by_cases hw : w = s
        · left; left; exact hw
        · right; omega

theorem memcpy_bytes_length (t : Text) (s : Nat) (ds : List Nat) :
    (memcpy t s ds).bytes.length = t.bytes.length := by
  induction ds generalizing t s with
  | nil => simp [memcpy]
  | cons d ds ih => simp [memcpy, ih, Text.poke]

theorem memcpy_bytes (t : Text) (s : Nat) (ds : List Nat)
    (hfit : s + ds.length ≤ t.bytes.length) :
    (memcpy t s ds).bytes = t.bytes.take s ++ ds ++ t.bytes.drop (s + ds.length) := by
  induction ds generalizing t s with
  | nil => simp [memcpy]
  | cons d ds ih =>
    simp only [List.length_cons] at hfit
    have hs : s < t.bytes.length := by omega
    simp only [memcpy]
    rw [ih]
    · simp only [Text.poke, List.length_cons]
      rw [take_set_succ _ _ _ hs, set_eq_splice _ _ _ hs]
      have hk : (t.bytes.take s).length = s := by simp; omega
      rw [List.drop_append_eq_append_drop]
      have e1 : s + 1 + ds.length - (List.take s t.bytes).length = ds.length + 1 := by
        rw [hk]; omega
      have e2 : List.drop (s + 1 + ds.length) (List.take s t.bytes) = [] := by
        apply List.drop_eq_nil_of_le; rw [hk]; omega
      rw [e1, e2]
      simp only [List.drop_succ_cons, List.nil_append, List.append_assoc,
        List.singleton_append, List.drop_drop]
      have e3 : s + 1 + ds.length = s + (ds.length + 1) := by omega
      rw [e3]
    · simp only [Text.poke, List.length_set]; omega

/-! ## One block of the updating half -/

theorem content_eq_nil_iff (c : List Nat) : content c = [] ↔ (content c).length = 0 := by
  simp

theorem updateFrom_block (d : List Nat) (b : Block) (i : Nat) (t : Text) (s : Nat) :
    (updateFrom d b i t s).1
      = { b with prvcmdout := (copyOut (b.curcmdout.drop i) i b.prvcmdout t s).2.1 } := by
  unfold updateFrom
  split
  next j prv t1 s1 heq =>
    rw [heq]
    split
    · rfl
    · split <;> rfl

/-- From the label `update:` on, a block moves `s` to the end of its stretch of the line. -/
theorem updateFrom_offset (d : List Nat) (b : Block) (i : Nat) (t : Text) (s : Nat)
    (hi : i ≤ (content b.curcmdout).length) :
    (updateFrom d b i t (s + i)).2.2 = s + width d b := by
  have h1 := copyOut_index (b.curcmdout.drop i) i b.prvcmdout t (s + i)
  have h2 := copyOut_offset (b.curcmdout.drop i) i b.prvcmdout t (s + i)
  rw [content_drop _ _ hi] at h1 h2
  simp only [List.length_drop] at h1 h2
  unfold updateFrom width
  split
  next j prv t1 s1 heq =>
    rw [heq] at h1 h2
    simp only at h1 h2
    by_cases hj : j = 0
    · have hc : content b.curcmdout = [] := by
        rw [content_eq_nil_iff]; omega
      rw [if_pos hj, if_pos hc]
      simp only
      rw [h2, hc]; simp
      omega
    · have hc : ¬ content b.curcmdout = [] := by
        rw [content_eq_nil_iff]; omega
      rw [if_neg hj, if_neg hc]
      split <;> simp only <;> omega

/-- From the label `update:` on, a block stores exactly to the offsets from `s` up to
the new value of `s`. -/
theorem updateFrom_writes (d : List Nat) (b : Block) (i : Nat) (t : Text) (s w : Nat) :
    w ∈ (updateFrom d b i t s).2.1.writes ↔
      w ∈ t.writes ∨ (s ≤ w ∧ w < (updateFrom d b i t s).2.2) := by
  have h2 := copyOut_offset (b.curcmdout.drop i) i b.prvcmdout t s
  have h3 := copyOut_writes (b.curcmdout.drop i) i b.prvcmdout t s w
  unfold updateFrom
  split
  next j prv t1 s1 heq =>
    rw [heq] at h2 h3
    simp only at h2 h3
    by_cases hj : j = 0
    · rw [if_pos hj]
      simp only
      rw [h3, h2]
    · rw [if_neg hj]
      split
      · simp only [memcpy_writes, Text.poke, List.mem_cons, h3]
        constructor
        · rintro ((h | h | h) | h)
          · right; omega
          · left; exact h
          · right; omega
          · right; omega
        · rintro (h | h)
          · left; right; left; exact h
          · by_cases hw : w < s1
            · left; right; right; omega
            · by_cases hw2 : w = s1
              · left; left; exact hw2
              · right; omega
      · simp only [memcpy_writes, h3]
        constructor
        · rintro ((h | h) | h)
          · left; exact h
          · right; omega
          · right; omega
        · rintro (h | h)
          · left; left; exact h
          · by_cases hw : w < s1
            · left; right; omega
            · right; omega

/-! ## Terminated buffers and agreement -/

theorem content_length_le_of_getD (c : List Nat) (k : Nat) (h : c.getD k 1 = 0) :
    (content c).length ≤ k := by
  induction c generalizing k with
  | nil => simp [content]
  | cons x xs ih =>
    rw [content_cons]
    cases k with
    | zero =>
      simp at h
      simp [h]
    | succ k =>
      simp only [List.getD_cons_succ] at h
      split
      · simpa using ih k h
      · simp

theorem content_lt_of_terminated (b : Block) (h : Terminated b) :
    (content b.curcmdout).length < b.curcmdout.length := by
  have := content_length_le_of_getD b.curcmdout CMDOUTLENGTH h.2.1
  rw [h.1]; omega

theorem take_succ_getD (l : List Nat) (k : Nat) (h : k < l.length) :
    l.take (k + 1) = l.take k ++ [l.getD k 0] := by
  induction l generalizing k with
  | nil => simp at h
  | cons x xs ih =>
    cases k with
    | zero => simp
    | succ k => simp [ih k (by simpa using h)]

/-- A block on which the checking scan stops without a difference is in agreement. -/
theorem agreesThrough_of_same (b : Block)
    (hterm : (content b.curcmdout).length < b.curcmdout.length)
    (hlen : b.prvcmdout.length = b.curcmdout.length)
    (h : b.curcmdout.getD (agree b.curcmdout b.prvcmdout) 0
      = b.prvcmdout.getD (agree b.curcmdout b.prvcmdout) 0) :
    AgreesThrough b := by
  have e := agree_eq_content _ _ h
  have ht := agree_take b.curcmdout b.prvcmdout
  rw [e] at h ht
  refine ⟨hterm, ?_⟩
  rw [take_succ_getD _ _ hterm, take_succ_getD _ _ (by omega), ht, h]

/-- On a block in agreement the checking scan stops at the end of the content, on
equal bytes. -/
theorem agree_of_agreesThrough (c p : List Nat)
    (h1 : (content c).length < c.length)
    (h2 : p.take ((content c).length + 1) = c.take ((content c).length + 1)) :
    agree c p = (content c).length ∧ c.getD (agree c p) 0 = p.getD (agree c p) 0 := by
  induction c generalizing p with
  | nil => simp at h1
  | cons x xs ih =>
    rw [content_cons] at h1 h2 ⊢
    cases p with
    | nil => simp at h2
    | cons y ys =>
      simp only [agree]
      by_cases hx : x ≠ 10 ∧ x ≠ 0
      · rw [if_pos hx] at h1 h2 ⊢
        simp only [List.length_cons, List.take_succ_cons, List.cons.injEq] at h1 h2
        have hxy : x = y ∧ x ≠ 10 ∧ x ≠ 0 := ⟨h2.1.symm, hx⟩
        rw [if_pos hxy]
        have := ih ys (by omega) h2.2
        simp only [List.length_cons, List.getD_cons_succ]
        exact ⟨by omega, this.2⟩
      · rw [if_neg hx] at h1 h2 ⊢
        simp at h2
        have hxy : ¬ (x = y ∧ x ≠ 10 ∧ x ≠ 0) := fun h => hx h.2
        rw [if_neg hxy]
        simp [h2]

/-- The checking half returns `0` on a table of blocks in agreement. -/
theorem checkingHalf_none_of_agrees (d : List Nat) (bs : List Block) (t : Text) (s : Nat)
    (h : ∀ b ∈ bs, AgreesThrough b) : checkingHalf d bs t s = none := by
  induction bs generalizing s with
  | nil => rfl
  | cons b bs ih =>
    have hb := h b (List.mem_cons_self _ _)
    have hrest : ∀ b ∈ bs, AgreesThrough b := fun x hx => h x (List.mem_cons_of_mem _ hx)
    have := agree_of_agreesThrough b.curcmdout b.prvcmdout hb.1 hb.2
    unfold checkingHalf
    rw [if_neg (by simpa using this.2)]
    split
    · rw [ih _ hrest]; rfl
    · split
      · rw [ih _ hrest]; rfl
      · rw [ih _ hrest]; rfl

/-- From the label `update:` on, a block is left in agreement. -/
theorem updateFrom_agrees (d : List Nat) (b : Block) (i : Nat) (t : Text) (s : Nat)
    (hi : i ≤ (content b.curcmdout).length)
    (hpre : b.prvcmdout.take i = b.curcmdout.take i)
    (hterm : (content b.curcmdout).length < b.curcmdout.length)
    (hlen : b.prvcmdout.length = b.curcmdout.length) :
    AgreesThrough (updateFrom d b i t s).1 := by
  rw [updateFrom_block]
  refine ⟨hterm, ?_⟩
  simp only
  have hc := content_drop _ _ hi
  have h := copyOut_prv (b.curcmdout.drop i) i b.prvcmdout t s
    (by rw [hc]; simp only [List.length_drop]; omega)
    (by rw [hc]; simp only [List.length_drop]; omega)
  rw [hc] at h
  simp only [List.length_drop] at h
  have e : i + ((content b.curcmdout).length - i) + 1 = (content b.curcmdout).length + 1 := by
    omega
  rw [e, hpre] at h
  rw [h]
  have e2 : (content b.curcmdout).length + 1
      = i + ((content b.curcmdout).length - i + 1) := by omega
  conv_rhs => rw [e2, List.take_add]

/-! ## The two halves over a table -/

theorem lineEnd_cons (d : List Nat) (b : Block) (bs : List Block) :
    lineEnd d (b :: bs) = width d b + lineEnd d bs := by
  simp [lineEnd]

theorem updatingHalf_cons (d : List Nat) (b : Block) (bs : List Block) (t : Text) (s : Nat) :
    updatingHalf d (b :: bs) t s
      = ((updateFrom d b 0 t s).1 ::
          (updatingHalf d bs (updateFrom d b 0 t s).2.1 (updateFrom d b 0 t s).2.2).1,
        (updatingHalf d bs (updateFrom d b 0 t s).2.1 (updateFrom d b 0 t s).2.2).2) := by
  rfl

theorem updatingHalf_offset (d : List Nat) (bs : List Block) (t : Text) (s : Nat) :
    (updatingHalf d bs t s).2.2 = s + lineEnd d bs := by
  induction bs generalizing t s with
  | nil => simp [updatingHalf, lineEnd]
  | cons b bs ih =>
    rw [updatingHalf_cons, lineEnd_cons]
    simp only
    rw [ih]
    have := updateFrom_offset d b 0 t s (Nat.zero_le _)
    simp only [Nat.add_zero] at this
    rw [this]; omega

theorem updatingHalf_writes (d : List Nat) (bs : List Block) (t : Text) (s w : Nat) :
    w ∈ (updatingHalf d bs t s).2.1.writes ↔
      w ∈ t.writes ∨ (s ≤ w ∧ w < s + lineEnd d bs) := by
  induction bs generalizing t s with
  | nil => simp [updatingHalf, lineEnd]
  | cons b bs ih =>
    rw [updatingHalf_cons, lineEnd_cons]
    simp only
    rw [ih, updateFrom_writes]
    have := updateFrom_offset d b 0 t s (Nat.zero_le _)
    simp only [Nat.add_zero] at this
    rw [this]
    constructor
    · rintro ((h | h) | h)
      · left; exact h
      · right; omega
      · right; omega
    · rintro (h | h)
      · left; left; exact h
      · by_cases hw : w < s + width d b
        · left; right; omega
        · right; omega

theorem updatingHalf_agrees (d : List Nat) (bs : List Block) (t : Text) (s : Nat)
    (h : ∀ b ∈ bs, Terminated b) :
    ∀ b ∈ (updatingHalf d bs t s).1, AgreesThrough b := by
  induction bs generalizing t s with
  | nil => simp [updatingHalf]
  | cons b bs ih =>
    have hb := h b (List.mem_cons_self _ _)
    have hrest : ∀ b ∈ bs, Terminated b := fun x hx => h x (List.mem_cons_of_mem _ hx)
    rw [updatingHalf_cons]
    intro x hx
    simp only [List.mem_cons] at hx
    rcases hx with hx | hx
    · rw [hx]
      exact updateFrom_agrees d b 0 t s (Nat.zero_le _) (by simp)
        (content_lt_of_terminated b hb) (by rw [hb.1, hb.2.2.1])
    · exact ih _ _ hrest x hx

/-- When the checking half leaves through `goto update`, the pass ends with `s` at the
sum of the widths, has stored only to offsets from its first value of `s` up to there,
and leaves every block in agreement. -/
theorem checkingHalf_some (d : List Nat) (bs : List Block) (t : Text) (s : Nat)
    (r : List Block × Text × Nat) (hr : checkingHalf d bs t s = some r) :
    r.2.2 = s + lineEnd d bs ∧
    (∀ w, w ∈ r.2.1.writes → w ∈ t.writes ∨ (s ≤ w ∧ w < s + lineEnd d bs)) ∧
    ((∀ b ∈ bs, Terminated b) → ∀ b ∈ r.1, AgreesThrough b) := by
  induction bs generalizing s r with
  | nil => simp [checkingHalf] at hr
  | cons b bs ih =>
    rw [lineEnd_cons]
    unfold checkingHalf at hr
    by_cases hdiff : b.curcmdout.getD (agree b.curcmdout b.prvcmdout) 0
        ≠ b.prvcmdout.getD (agree b.curcmdout b.prvcmdout) 0
    · rw [if_pos hdiff] at hr
      simp only [Option.some.injEq] at hr
      have hoff := updateFrom_offset d b _ t s (agree_le_content b.curcmdout b.prvcmdout)
      subst hr
      refine ⟨?_, ?_, ?_⟩
      · simp only
        rw [updatingHalf_offset, hoff]; omega
      · intro w hw
        simp only at hw
        rw [updatingHalf_writes, updateFrom_writes, hoff] at hw
        rcases hw with (hw | hw) | hw
        · left; exact hw
        · right; omega
        · right; omega
      · intro hT x hx
        have hb := hT b (List.mem_cons_self _ _)
        have hrest : ∀ b ∈ bs, Terminated b := fun x hx => hT x (List.mem_cons_of_mem _ hx)
        simp only [List.mem_cons] at hx
        rcases hx with hx | hx
        · rw [hx]
          exact updateFrom_agrees d b _ t _ (agree_le_content _ _) (agree_take _ _)
            (content_lt_of_terminated b hb) (by rw [hb.1, hb.2.2.1])
        · exact updatingHalf_agrees d bs _ _ hrest x hx
    · rw [if_neg hdiff] at hr
      have hsame := not_not.mp hdiff
      have hlen := agree_eq_content _ _ hsame
      have key : ∀ s1, s1 = s + width d b →
          (checkingHalf d bs t s1).map (fun q => (b :: q.1, q.2)) = some r →
          r.2.2 = s + (width d b + lineEnd d bs) ∧
          (∀ w, w ∈ r.2.1.writes →
            w ∈ t.writes ∨ (s ≤ w ∧ w < s + (width d b + lineEnd d bs))) ∧
          ((∀ x ∈ b :: bs, Terminated x) → ∀ x ∈ r.1, AgreesThrough x) := by
        intro s1 hs1 hmap
        cases hq : checkingHalf d bs t s1 with
        | none => rw [hq] at hmap; simp at hmap
        | some q =>
          rw [hq] at hmap
          simp only [Option.map_some', Option.some.injEq] at hmap
          have := ih s1 q hq
          subst hmap
          refine ⟨by rw [this.1]; omega, ?_, ?_⟩
          · intro w hw
            rcases this.2.1 w hw with h | h
            · left; exact h
            · right; omega
          · intro hT x hx
            have hb := hT b (List.mem_cons_self _ _)
            have hrest : ∀ b ∈ bs, Terminated b :=
              fun x hx => hT x (List.mem_cons_of_mem _ hx)
            simp only [List.mem_cons] at hx
            rcases hx with hx | hx
            · rw [hx]
              exact agreesThrough_of_same b (content_lt_of_terminated b hb)
                (by rw [hb.1, hb.2.2.1]) hsame
            · exact this.2.2 hrest x hx
      by_cases h0 : agree b.curcmdout b.prvcmdout = 0
      · rw [if_pos h0] at hr
        refine key _ ?_ hr
        have hc : content b.curcmdout = [] := by rw [content_eq_nil_iff]; omega
        simp [width, hc, h0]
      · rw [if_neg h0] at hr
        have hc : ¬ content b.curcmdout = [] := by rw [content_eq_nil_iff]; omega
        by_cases hp : b.pathc.isSome
        · rw [if_pos hp] at hr
          refine key _ ?_ hr
          simp only [width, if_neg hc, if_pos hp]; omega
        · rw [if_neg hp] at hr
          refine key _ ?_ hr
          simp only [width, if_neg hc, if_neg hp]; omega

/-- When the checking half returns `0`, every block is in agreement. -/
theorem checkingHalf_none (d : List Nat) (bs : List Block) (t : Text) (s : Nat)
    (hT : ∀ b ∈ bs, Terminated b) (hr : checkingHalf d bs t s = none) :
    ∀ b ∈ bs, AgreesThrough b := by
  induction bs generalizing s with
  | nil => simp
  | cons b bs ih =>
    have hb := hT b (List.mem_cons_self _ _)
    have hrest : ∀ b ∈ bs, Terminated b := fun x hx => hT x (List.mem_cons_of_mem _ hx)
    unfold checkingHalf at hr
    by_cases hdiff : b.curcmdout.getD (agree b.curcmdout b.prvcmdout) 0
        ≠ b.prvcmdout.getD (agree b.curcmdout b.prvcmdout) 0
    · rw [if_pos hdiff] at hr
      simp at hr
    · rw [if_neg hdiff] at hr
      have hsame := not_not.mp hdiff
      have key : ∀ s1, (checkingHalf d bs t s1).map (fun q => (b :: q.1, q.2)) = none →
          ∀ x ∈ b :: bs, AgreesThrough x := by
        intro s1 hmap x hx
        simp only [Option.map_eq_none'] at hmap
        simp only [List.mem_cons] at hx
        rcases hx with hx | hx
        · rw [hx]
          exact agreesThrough_of_same b (content_lt_of_terminated b hb)
            (by rw [hb.1, hb.2.2.1]) hsame
        · exact ih s1 hrest hmap x hx
      split at hr
      · exact key _ hr
      · split at hr
        · exact key _ hr
        · exact key _ hr

/-! ## Only `prvcmdout` changes in the table -/

theorem updatingHalf_frame (d : List Nat) (bs : List Block) (t : Text) (s : Nat) :
    List.Forall₂ (fun b b1 => b1 = { b with prvcmdout := b1.prvcmdout })
      bs (updatingHalf d bs t s).1 := by
  induction bs generalizing t s with
  | nil => simp [updatingHalf]
  | cons b bs ih =>
    rw [updatingHalf_cons]
    refine List.Forall₂.cons ?_ (ih _ _)
    rw [updateFrom_block]

theorem forall₂_self_frame (bs : List Block) :
    List.Forall₂ (fun b b1 : Block => b1 = { b with prvcmdout := b1.prvcmdout }) bs bs := by
  induction bs with
  | nil => exact List.Forall₂.nil
  | cons b bs ih => exact List.Forall₂.cons rfl ih

theorem checkingHalf_frame (d : List Nat) (bs : List Block) (t : Text) (s : Nat)
    (r : List Block × Text × Nat) (hr : checkingHalf d bs t s = some r) :
    List.Forall₂ (fun b b1 => b1 = { b with prvcmdout := b1.prvcmdout }) bs r.1 := by
  induction bs generalizing s r with
  | nil => simp [checkingHalf] at hr
  | cons b bs ih =>
    unfold checkingHalf at hr
    have key : ∀ s1, (checkingHalf d bs t s1).map (fun q => (b :: q.1, q.2)) = some r →
        List.Forall₂ (fun b b1 => b1 = { b with prvcmdout := b1.prvcmdout }) (b :: bs) r.1 := by
      intro s1 hmap
      cases hq : checkingHalf d bs t s1 with
      | none => rw [hq] at hmap; simp at hmap
      | some q =>
        rw [hq] at hmap
        simp only [Option.map_some', Option.some.injEq] at hmap
        subst hmap
        exact List.Forall₂.cons rfl (ih s1 q hq)
    split at hr
    · simp only [Option.some.injEq] at hr
      subst hr
      refine List.Forall₂.cons ?_ (updatingHalf_frame _ _ _ _)
      rw [updateFrom_block]
    · split at hr
      · exact key _ hr
      · split at hr
        · exact key _ hr
        · exact key _ hr

/-! ## One pass of `updatestatus` -/

theorem updatestatus_of_none (d : List Nat) (σ : State)
    (h : checkingHalf d σ.blocks ⟨σ.statustext, []⟩ 0 = none) :
    updatestatus d σ = ⟨0, σ, []⟩ := by
  unfold updatestatus
  rw [h]

theorem updatestatus_blocks_of_some (d : List Nat) (σ : State) (r : List Block × Text × Nat)
    (h : checkingHalf d σ.blocks ⟨σ.statustext, []⟩ 0 = some r) :
    (updatestatus d σ).state.blocks = r.1 ∧ (updatestatus d σ).ret = 1 ∧
    (updatestatus d σ).writes
      = (if r.2.2 ≠ 0 then r.2.2 - d.length else r.2.2) :: r.2.1.writes := by
  unfold updatestatus
  rw [h]
  obtain ⟨bs, t, s⟩ := r
  simp only
  split <;> simp [Text.poke, *]

theorem width_le (d : List Nat) (b : Block) (h : b.curcmdout.getD CMDOUTLENGTH 1 = 0) :
    width d b ≤ CMDOUTLENGTH + 1 + d.length := by
  have := content_length_le_of_getD _ _ h
  unfold width
  split
  · omega
  · split <;> omega

theorem lineEnd_le (d : List Nat) (bs : List Block)
    (h : ∀ b ∈ bs, b.curcmdout.getD CMDOUTLENGTH 1 = 0) :
    lineEnd d bs ≤ bs.length * (CMDOUTLENGTH + 1 + d.length) := by
  induction bs with
  | nil => simp [lineEnd]
  | cons b bs ih =>
    rw [lineEnd_cons, List.length_cons, Nat.succ_mul]
    have h1 := width_le d b (h b (List.mem_cons_self _ _))
    have h2 := ih (fun x hx => h x (List.mem_cons_of_mem _ hx))
    omega

theorem width_pos (d : List Nat) (b : Block) (hd : d ≠ []) (h : width d b ≠ 0) :
    d.length < width d b := by
  have hdl : 0 < d.length := List.length_pos.mpr hd
  unfold width at h ⊢
  split
  · simp_all
  · rename_i hc
    have : 0 < (content b.curcmdout).length := List.length_pos.mpr hc
    split <;> omega

theorem lineEnd_pos (d : List Nat) (bs : List Block) (hd : d ≠ []) (h : lineEnd d bs ≠ 0) :
    d.length < lineEnd d bs := by
  induction bs with
  | nil => simp [lineEnd] at h
  | cons b bs ih =>
    rw [lineEnd_cons] at h ⊢
    by_cases hb : width d b = 0
    · rw [hb] at h ⊢
      simpa using ih (by simpa using h)
    · have := width_pos d b hd hb
      omega

/-! ## The bytes one block puts into the line -/

theorem splice_splice (l : List Nat) (s : Nat) (xs ys : List Nat) (hs : s ≤ l.length) :
    (l.take s ++ xs ++ l.drop (s + xs.length)).take (s + xs.length) ++ ys
        ++ (l.take s ++ xs ++ l.drop (s + xs.length)).drop (s + xs.length + ys.length)
      = l.take s ++ (xs ++ ys) ++ l.drop (s + (xs ++ ys).length) := by
  have hk : (l.take s ++ xs).length = s + xs.length := by simp; omega
  rw [List.take_left' hk]
  have e : s + xs.length + ys.length = (l.take s ++ xs).length + ys.length := by rw [hk]
  rw [e, List.drop_append, List.drop_drop]
  simp [List.append_assoc, Nat.add_assoc]

theorem updateFrom_eq (d : List Nat) (b : Block) (i : Nat) (t : Text) (s : Nat) :
    updateFrom d b i t s =
      if (copyOut (b.curcmdout.drop i) i b.prvcmdout t s).1 = 0 then
        ({ b with prvcmdout := (copyOut (b.curcmdout.drop i) i b.prvcmdout t s).2.1 },
          (copyOut (b.curcmdout.drop i) i b.prvcmdout t s).2.2.1,
          (copyOut (b.curcmdout.drop i) i b.prvcmdout t s).2.2.2)
      else if b.pathc.isSome then
        ({ b with prvcmdout := (copyOut (b.curcmdout.drop i) i b.prvcmdout t s).2.1 },
          memcpy ((copyOut (b.curcmdout.drop i) i b.prvcmdout t s).2.2.1.poke
              (copyOut (b.curcmdout.drop i) i b.prvcmdout t s).2.2.2 (toByte b.signal))
            ((copyOut (b.curcmdout.drop i) i b.prvcmdout t s).2.2.2 + 1) d,
          (copyOut (b.curcmdout.drop i) i b.prvcmdout t s).2.2.2 + 1 + d.length)
      else
        ({ b with prvcmdout := (copyOut (b.curcmdout.drop i) i b.prvcmdout t s).2.1 },
          memcpy (copyOut (b.curcmdout.drop i) i b.prvcmdout t s).2.2.1
            (copyOut (b.curcmdout.drop i) i b.prvcmdout t s).2.2.2 d,
          (copyOut (b.curcmdout.drop i) i b.prvcmdout t s).2.2.2 + d.length) := by
  unfold updateFrom
  split
  next j prv t1 s1 heq => rw [heq]

theorem piece_length (d : List Nat) (b : Block) : (piece d b).length = width d b := by
  unfold piece width
  split
  · rfl
  · split
    · simp; omega
    · simp

theorem pieces_length (d : List Nat) (bs : List Block) :
    ((bs.map (piece d)).flatten).length = lineEnd d bs := by
  induction bs with
  | nil => rfl
  | cons b bs ih =>
    rw [List.map_cons, List.flatten_cons, List.length_append, ih, piece_length, lineEnd_cons]

theorem piece_drop (d : List Nat) (b : Block) (i : Nat)
    (hi : i ≤ (content b.curcmdout).length) (hc : content b.curcmdout ≠ []) :
    (piece d b).drop i
      = (content b.curcmdout).drop i
          ++ (if b.pathc.isSome then toByte b.signal :: d else d) := by
  unfold piece
  rw [if_neg hc]
  split
  · rw [List.append_assoc, List.drop_append_of_le_length hi]; rfl
  · rw [List.drop_append_of_le_length hi]

theorem agree_le_width (d : List Nat) (b : Block) :
    agree b.curcmdout b.prvcmdout ≤ width d b := by
  have h := agree_le_content b.curcmdout b.prvcmdout
  unfold width
  split
  · rename_i hc
    rw [hc] at h; simpa using h
  · split <;> omega

/-- With empty content the body of the updating loop, entered at the top, leaves
`statustext` alone and makes no store. -/
theorem updateFrom_text_of_empty (d : List Nat) (b : Block) (t : Text) (s : Nat)
    (hc : content b.curcmdout = []) : (updateFrom d b 0 t s).2.1 = t := by
  have h1 := copyOut_index (b.curcmdout.drop 0) 0 b.prvcmdout t s
  rw [updateFrom_eq]
  have hz : (copyOut (b.curcmdout.drop 0) 0 b.prvcmdout t s).1 = 0 := by
    rw [h1]; simp [hc]
  rw [if_pos hz]
  simp only [List.drop_zero]
  cases hcur : b.curcmdout with
  | nil => rfl
  | cons c cs =>
    rw [hcur, content_cons] at hc
    by_cases hx : c ≠ 10 ∧ c ≠ 0
    · rw [if_pos hx] at hc; simp at hc
    · simp only [copyOut, if_neg hx]

/-- Entered with `c` at index `i` of the content, the body of the updating loop
overwrites the bytes from `s` on with what is left of the piece of the block, and
nothing else. -/
theorem updateFrom_bytes (d : List Nat) (b : Block) (i : Nat) (t : Text) (s : Nat)
    (hi : i ≤ (content b.curcmdout).length)
    (hfit : s + (width d b - i) ≤ t.bytes.length) :
    (updateFrom d b i t s).2.1.bytes
      = t.bytes.take s ++ (piece d b).drop i ++ t.bytes.drop (s + (width d b - i)) := by
  have hs : s ≤ t.bytes.length := by omega
  have h1 := copyOut_index (b.curcmdout.drop i) i b.prvcmdout t s
  have h2 := copyOut_offset (b.curcmdout.drop i) i b.prvcmdout t s
  have h3 := copyOut_bytes (b.curcmdout.drop i) i b.prvcmdout t s
  have hl1 := copyOut_bytes_length (b.curcmdout.drop i) i b.prvcmdout t s
  rw [content_drop _ _ hi] at h1 h2 h3
  rw [updateFrom_eq]
  generalize copyOut (b.curcmdout.drop i) i b.prvcmdout t s = r at h1 h2 h3 hl1 ⊢
  obtain ⟨j, prv, t1, s1⟩ := r
  simp only [List.length_drop] at h1 h2 h3 hl1 ⊢
  by_cases hj : j = 0
  · have hc : content b.curcmdout = [] := by rw [content_eq_nil_iff]; omega
    have hw : width d b = 0 := by simp [width, hc]
    have hp : piece d b = [] := by simp [piece, hc]
    rw [if_pos hj, hw, hp]
    simp only
    rw [h3 (by rw [hc]; simpa using hs), hc]
    simp
  · have hc : ¬ content b.curcmdout = [] := by rw [content_eq_nil_iff]; omega
    rw [if_neg hj, piece_drop d b i hi hc]
    have hcs : ((content b.curcmdout).drop i).length = (content b.curcmdout).length - i := by
      simp
    by_cases hp : b.pathc.isSome
    · have hw : width d b = (content b.curcmdout).length + 1 + d.length := by
        simp [width, hc, hp]
      rw [hw] at hfit ⊢
      rw [if_pos hp, if_pos hp]
      simp only
      have hb1 : t1.bytes = t.bytes.take s ++ (content b.curcmdout).drop i
          ++ t.bytes.drop (s + ((content b.curcmdout).length - i)) := h3 (by omega)
      rw [memcpy_bytes _ _ _ (by simp only [Text.poke, List.length_set]; omega)]
      simp only [Text.poke]
      have hset : t1.bytes.set s1 (toByte b.signal)
          = t1.bytes.take s1 ++ [toByte b.signal] ++ t1.bytes.drop (s1 + 1) := by
        rw [set_eq_splice _ _ _ (by omega)]; simp
      have hm := splice_splice t1.bytes s1 [toByte b.signal] d (by omega)
      simp only [List.length_singleton] at hm
      have hc2 := splice_splice t.bytes s ((content b.curcmdout).drop i)
        ([toByte b.signal] ++ d) hs
      rw [hcs] at hc2
      rw [hset, hm, h2, hb1, hc2]
      have e : s + ((content b.curcmdout).drop i ++ ([toByte b.signal] ++ d)).length
          = s + ((content b.curcmdout).length + 1 + d.length - i) := by
        simp only [List.length_append, hcs, List.length_singleton]; omega
      rw [e]; rfl
    · have hw : width d b = (content b.curcmdout).length + d.length := by
        simp [width, hc, hp]
      rw [hw] at hfit ⊢
      rw [if_neg hp, if_neg hp]
      simp only
      have hb1 : t1.bytes = t.bytes.take s ++ (content b.curcmdout).drop i
          ++ t.bytes.drop (s + ((content b.curcmdout).length - i)) := h3 (by omega)
      have hc2 := splice_splice t.bytes s ((content b.curcmdout).drop i) d hs
      rw [hcs] at hc2
      rw [memcpy_bytes _ _ _ (by omega), h2, hb1, hc2]
      have e : s + ((content b.curcmdout).drop i ++ d).length
          = s + ((content b.curcmdout).length + d.length - i) := by
        simp only [List.length_append, hcs]; omega
      rw [e]

theorem updateFrom_bytes_length (d : List Nat) (b : Block) (i : Nat) (t : Text) (s : Nat) :
    (updateFrom d b i t s).2.1.bytes.length = t.bytes.length := by
  have h1 := copyOut_bytes_length (b.curcmdout.drop i) i b.prvcmdout t s
  rw [updateFrom_eq]
  split
  · exact h1
  · split
    · simp [memcpy_bytes_length, Text.poke, h1]
    · simp [memcpy_bytes_length, h1]

/-- Entered at its top, the updating half overwrites the bytes from `s` on with the
pieces of the blocks in table order, and nothing else. -/
theorem updatingHalf_bytes (d : List Nat) (bs : List Block) (t : Text) (s : Nat)
    (hfit : s + lineEnd d bs ≤ t.bytes.length) :
    (updatingHalf d bs t s).2.1.bytes
      = t.bytes.take s ++ (bs.map (piece d)).flatten ++ t.bytes.drop (s + lineEnd d bs) := by
  induction bs generalizing t s with
  | nil => simp [updatingHalf, lineEnd]
  | cons b bs ih =>
    rw [lineEnd_cons] at hfit
    have hoff := updateFrom_offset d b 0 t s (Nat.zero_le _)
    simp only [Nat.add_zero] at hoff
    have hb := updateFrom_bytes d b 0 t s (Nat.zero_le _) (by omega)
    simp only [List.drop_zero, Nat.sub_zero] at hb
    rw [updatingHalf_cons]
    simp only
    rw [ih _ _ (by rw [updateFrom_bytes_length, hoff]; omega), hoff, hb,
      ← piece_length, ← pieces_length]
    rw [splice_splice t.bytes s (piece d b) ((bs.map (piece d)).flatten) (by omega)]
    rw [List.map_cons, List.flatten_cons, ← pieces_length, List.map_cons, List.flatten_cons]

/-- When the checking half leaves through `goto update`, the bytes of `statustext`
below the offset at which the updating begins are as they were, and from there on they
are the pieces of the blocks in table order. -/
theorem checkingHalf_bytes (d : List Nat) (bs : List Block) (t : Text) (s : Nat)
    (r : List Block × Text × Nat) (hr : checkingHalf d bs t s = some r)
    (hfit : s + lineEnd d bs ≤ t.bytes.length) :
    ∃ e, s ≤ e ∧ e ≤ s + lineEnd d bs ∧
      r.2.1.bytes = t.bytes.take e ++ ((bs.map (piece d)).flatten).drop (e - s)
        ++ t.bytes.drop (s + lineEnd d bs) := by
  induction bs generalizing s r with
  | nil => simp [checkingHalf] at hr
  | cons b bs ih =>
    rw [lineEnd_cons] at hfit ⊢
    have hiw := agree_le_width d b
    unfold checkingHalf at hr
    by_cases hdiff : b.curcmdout.getD (agree b.curcmdout b.prvcmdout) 0
        ≠ b.prvcmdout.getD (agree b.curcmdout b.prvcmdout) 0
    · rw [if_pos hdiff] at hr
      simp only [Option.some.injEq] at hr
      have hoff := updateFrom_offset d b _ t s (agree_le_content b.curcmdout b.prvcmdout)
      have hb := updateFrom_bytes d b _ t (s + agree b.curcmdout b.prvcmdout)
        (agree_le_content b.curcmdout b.prvcmdout) (by omega)
      have e1 : s + agree b.curcmdout b.prvcmdout
          + (width d b - agree b.curcmdout b.prvcmdout) = s + width d b := by omega
      rw [e1] at hb
      subst hr
      refine ⟨s + agree b.curcmdout b.prvcmdout, by omega, by omega, ?_⟩
      simp only
      rw [updatingHalf_bytes _ _ _ _ (by rw [updateFrom_bytes_length, hoff]; omega),
        hoff, hb]
      have hxl : ((piece d b).drop (agree b.curcmdout b.prvcmdout)).length
          = width d b - agree b.curcmdout b.prvcmdout := by
        rw [List.length_drop, piece_length]
      have hsp := splice_splice t.bytes (s + agree b.curcmdout b.prvcmdout)
        ((piece d b).drop (agree b.curcmdout b.prvcmdout))
        ((bs.map (piece d)).flatten) (by omega)
      rw [hxl, pieces_length, e1] at hsp
      rw [hsp, List.map_cons, List.flatten_cons,
        List.drop_append_of_le_length (by rw [piece_length]; omega)]
      have e2 : s + agree b.curcmdout b.prvcmdout - s = agree b.curcmdout b.prvcmdout := by
        omega
      have e3 : s + agree b.curcmdout b.prvcmdout
          + ((piece d b).drop (agree b.curcmdout b.prvcmdout)
              ++ (bs.map (piece d)).flatten).length
          = s + (width d b + lineEnd d bs) := by
        rw [List.length_append, hxl, pieces_length]; omega
      rw [e2, e3]
    · rw [if_neg hdiff] at hr
      have hsame := not_not.mp hdiff
      have hlen := agree_eq_content _ _ hsame
      have key : ∀ s1, s1 = s + width d b →
          (checkingHalf d bs t s1).map (fun q => (b :: q.1, q.2)) = some r →
          ∃ e, s ≤ e ∧ e ≤ s + (width d b + lineEnd d bs) ∧
            r.2.1.bytes = t.bytes.take e
              ++ (((b :: bs).map (piece d)).flatten).drop (e - s)
              ++ t.bytes.drop (s + (width d b + lineEnd d bs)) := by
        intro s1 hs1 hmap
        cases hq : checkingHalf d bs t s1 with
        | none => rw [hq] at hmap; simp at hmap
        | some q =>
          rw [hq] at hmap
          simp only [Option.map_some', Option.some.injEq] at hmap
          obtain ⟨e, he1, he2, he3⟩ := ih s1 q hq (by omega)
          subst hmap
          refine ⟨e, by omega, by omega, ?_⟩
          simp only
          have hnil : (piece d b).drop (e - s) = [] :=
            List.drop_eq_nil_of_le (by rw [piece_length]; omega)
          have e4 : e - s - width d b = e - s1 := by omega
          have e5 : s1 + lineEnd d bs = s + (width d b + lineEnd d bs) := by omega
          have hR : (((b :: bs).map (piece d)).flatten).drop (e - s)
              = ((bs.map (piece d)).flatten).drop (e - s1) := by
            rw [List.map_cons, List.flatten_cons, List.drop_append_eq_append_drop, hnil,
              piece_length, e4, List.nil_append]
          rw [he3, hR, e5]
      by_cases h0 : agree b.curcmdout b.prvcmdout = 0
      · rw [if_pos h0] at hr
        refine key _ ?_ hr
        have hc : content b.curcmdout = [] := by rw [content_eq_nil_iff]; omega
        simp [width, hc, h0]
      · rw [if_neg h0] at hr
        have hc : ¬ content b.curcmdout = [] := by rw [content_eq_nil_iff]; omega
        by_cases hp : b.pathc.isSome
        · rw [if_pos hp] at hr
          refine key _ ?_ hr
          simp only [width, if_neg hc, if_pos hp]; omega
        · rw [if_neg hp] at hr
          refine key _ ?_ hr
          simp only [width, if_neg hc, if_neg hp]; omega

/-! ## The read loop of `updateblock` -/

theorem store_eq (buf : List Nat) (k : Nat) (xs : List Nat)
    (hfit : k + xs.length ≤ buf.length) :
    store buf k xs = buf.take k ++ xs ++ buf.drop (k + xs.length) := by
  induction xs generalizing buf k with
  | nil => simp [store]
  | cons x xs ih =>
    simp only [List.length_cons] at hfit
    have hk : k < buf.length := by omega
    simp only [store]
    rw [ih _ _ (by rw [List.length_set]; omega)]
    have hset : buf.set k x = buf.take k ++ [x] ++ buf.drop (k + 1) := by
      rw [set_eq_splice _ _ _ hk]; simp
    have hm := splice_splice buf k [x] xs (by omega)
    simp only [List.length_singleton] at hm
    rw [hset, hm]
    simp [Nat.add_assoc, Nat.add_comm 1]

theorem readCount_le (r a q : Nat) : readCount r a q ≤ a ∧ readCount r a q ≤ q := by
  unfold readCount; omega

/-- Every count from `1` up to what is left and what was asked for is one the pipe can
return. -/
theorem readCount_range (n a q : Nat) (h1 : 1 ≤ n) (h2 : n ≤ a) (h3 : n ≤ q) :
    readCount n a q = n := by
  unfold readCount; omega

theorem readCount_zero (r a q : Nat) (h : ¬ 0 < readCount r a q) (hq : 0 < q) : a = 0 := by
  unfold readCount at h; omega

/-- Whatever the pipe hands over at each `read`, the loop ends, with the first
`CMDOUTLENGTH - trd` bytes of the remaining output (or all of it, when it is shorter)
stored from index `trd` on and the rest of the buffer as it was. -/
theorem readLoop_spec (fuel : Nat) (sched pipe buf : List Nat) (trd : Nat)
    (htrd : trd < CMDOUTLENGTH) (hfuel : CMDOUTLENGTH - trd ≤ fuel)
    (hbuf : CMDOUTLENGTH ≤ buf.length) :
    readLoop fuel sched pipe buf trd
      = some (buf.take trd ++ pipe.take (CMDOUTLENGTH - trd)
                ++ buf.drop (trd + min (CMDOUTLENGTH - trd) pipe.length),
              trd + min (CMDOUTLENGTH - trd) pipe.length) := by
  induction fuel generalizing sched pipe buf trd with
  | zero => omega
  | succ fuel ih =>
    unfold readLoop
    generalize hrd : readCount (sched.headD 0) pipe.length (CMDOUTLENGTH - trd) = rd
    have hle := readCount_le (sched.headD 0) pipe.length (CMDOUTLENGTH - trd)
    rw [hrd] at hle
    by_cases hpos : 0 < rd
    · rw [if_pos hpos]
      have hst : store buf trd (pipe.take rd)
          = buf.take trd ++ pipe.take rd ++ buf.drop (trd + rd) := by
        have hl : (pipe.take rd).length = rd := by simp; omega
        have := store_eq buf trd (pipe.take rd) (by rw [hl]; omega)
        rw [hl] at this; exact this
      have hl0 : (buf.take trd).length = trd := by simp; omega
      by_cases hmore : trd + rd < CMDOUTLENGTH
      · rw [if_pos hmore, ih _ _ _ _ hmore (by omega)
          (by rw [hst]; simp; omega), hst]
        have hk : (buf.take trd ++ pipe.take rd).length = trd + rd := by simp; omega
        have e1 : trd + rd + min (CMDOUTLENGTH - (trd + rd)) (pipe.drop rd).length
            = (buf.take trd ++ pipe.take rd).length
              + min (CMDOUTLENGTH - (trd + rd)) (pipe.drop rd).length := by rw [hk]
        have e2 : min (CMDOUTLENGTH - trd) pipe.length
            = rd + min (CMDOUTLENGTH - (trd + rd)) (pipe.drop rd).length := by
          simp only [List.length_drop]; omega
        have e3 : CMDOUTLENGTH - trd = rd + (CMDOUTLENGTH - (trd + rd)) := by omega
        rw [List.take_left' hk]
        conv_lhs => rw [e1, List.drop_append, List.drop_drop]
        rw [e2]
        conv_rhs => rw [e3, List.take_add]
        simp only [List.append_assoc, Nat.add_assoc]
        rw [hk, Nat.add_assoc]
      · rw [if_neg hmore, hst]
        have e1 : rd = CMDOUTLENGTH - trd := by omega
        have e2 : min (CMDOUTLENGTH - trd) pipe.length = rd := by omega
        rw [e2, ← e1]
    · rw [if_neg hpos]
      have hz := readCount_zero (sched.headD 0) pipe.length (CMDOUTLENGTH - trd)
        (by rw [hrd]; exact hpos) (by omega)
      have hnil : pipe = [] := List.length_eq_zero.mp hz
      subst hnil
      simp

/-- What `updateblock` leaves in the block: the first `CMDOUTLENGTH` bytes of the
output over the start of `curcmdout`, the bytes after them as they were. -/
theorem updateblock_eq (sched out : List Nat) (b : Block)
    (hbuf : CMDOUTLENGTH ≤ b.curcmdout.length) :
    updateblock sched out b
      = some { b with
          curcmdout := (out.take CMDOUTLENGTH
            ++ b.curcmdout.drop (min CMDOUTLENGTH out.length)) } := by
  unfold updateblock
  rw [readLoop_spec CMDOUTLENGTH sched out b.curcmdout 0 (by decide) (by omega) hbuf]
  simp

theorem content_append_of_term (xs ys : List Nat)
    (h : (content xs).length < xs.length) : content (xs ++ ys) = content xs := by
  induction xs with
  | nil => simp at h
  | cons x xs ih =>
    rw [List.cons_append, content_cons, content_cons]
    rw [content_cons] at h
    split
    · rename_i hx
      rw [if_pos hx] at h
      rw [ih (by simpa using h)]
    · rfl

theorem content_append_of_nil (xs ys : List Nat) (h : content ys = []) :
    content (xs ++ ys) = content xs := by
  induction xs with
  | nil => simpa [content] using h
  | cons x xs ih =>
    rw [List.cons_append, content_cons, content_cons, ih]

theorem content_drop_of_getD (l : List Nat) (k : Nat) (h : l.getD k 1 = 0) :
    content (l.drop k) = [] := by
  induction l generalizing k with
  | nil => simp [content]
  | cons x xs ih =>
    cases k with
    | zero =>
      simp at h
      simp [content_cons, h]
    | succ k =>
      simp only [List.getD_cons_succ] at h
      simpa using ih k h

/-! ## Claims about `updatestatus` -/

/-- C2 (no-op stability): in a state where every block's `prvcmdout` agrees with its
`curcmdout` on every byte up to and including the first newline or NUL of `curcmdout`,
`updatestatus` returns `0`, leaves the table (every `prvcmdout`) and every byte of
`statustext` as they were, and stores to no offset of `statustext`. -/
theorem updatestatus_noop (delimiter : List Nat) (σ : State)
    (h : ∀ b ∈ σ.blocks, AgreesThrough b) :
    updatestatus delimiter σ = ⟨0, σ, []⟩ :=
  updatestatus_of_none delimiter σ (checkingHalf_none_of_agrees delimiter σ.blocks _ 0 h)

/-- C3 (idempotent commit): from a state whose buffers all have a NUL at index
`CMDOUTLENGTH`, one call of `updatestatus`, whatever it returns, changes nothing in the
table but `prvcmdout` buffers, leaves every block's `prvcmdout` in agreement with its
`curcmdout` up to and including the first newline or NUL, and a second call right
after it returns `0`. -/
theorem updatestatus_commit (delimiter : List Nat) (σ : State)
    (h : ∀ b ∈ σ.blocks, Terminated b) :
    List.Forall₂ (fun b b1 => b1 = { b with prvcmdout := b1.prvcmdout })
      σ.blocks (updatestatus delimiter σ).state.blocks ∧
    (∀ b ∈ (updatestatus delimiter σ).state.blocks, AgreesThrough b) ∧
    (updatestatus delimiter (updatestatus delimiter σ).state).ret = 0 := by
  have main : List.Forall₂ (fun b b1 => b1 = { b with prvcmdout := b1.prvcmdout })
        σ.blocks (updatestatus delimiter σ).state.blocks ∧
      (∀ b ∈ (updatestatus delimiter σ).state.blocks, AgreesThrough b) := by
    cases hc : checkingHalf delimiter σ.blocks ⟨σ.statustext, []⟩ 0 with
    | none =>
      rw [updatestatus_of_none delimiter σ hc]
      exact ⟨forall₂_self_frame _, checkingHalf_none delimiter σ.blocks _ 0 h hc⟩
    | some r =>
      rw [(updatestatus_blocks_of_some delimiter σ r hc).1]
      exact ⟨checkingHalf_frame delimiter _ _ _ r hc,
        (checkingHalf_some delimiter σ.blocks _ 0 r hc).2.2 h⟩
  refine ⟨main.1, main.2, ?_⟩
  rw [updatestatus_of_none delimiter _ (checkingHalf_none_of_agrees delimiter _ _ 0 main.2)]

/-- C10 (status buffer bound): with `T` the sum over the blocks with non-empty content
of content length, plus one for a click command, plus `DELIMITERLENGTH`, every offset
of `statustext` that `updatestatus` stores to (delimiter copies and final NUL included)
is below `T`, or is `0` when `T = 0`, so when `T` is at most
`STATUSLENGTH + DELIMITERLENGTH` every store is inside the array. When every
`curcmdout` has a NUL at index
`CMDOUTLENGTH`, `T` is at most `n * (CMDOUTLENGTH + 1 + DELIMITERLENGTH)` for a table
of `n` blocks, so when that product is at most `STATUSLENGTH + DELIMITERLENGTH` every
store is inside the array. The delimiter array has at least one byte. -/
theorem updatestatus_writes_bound (delimiter : List Nat) (σ : State)
    (hd : delimiter ≠ [])
    (h : ∀ b ∈ σ.blocks, b.curcmdout.getD CMDOUTLENGTH 1 = 0) :
    (∀ w ∈ (updatestatus delimiter σ).writes,
      w < lineEnd delimiter σ.blocks ∨ (lineEnd delimiter σ.blocks = 0 ∧ w = 0)) ∧
    (lineEnd delimiter σ.blocks ≤ STATUSLENGTH + delimiter.length →
      ∀ w ∈ (updatestatus delimiter σ).writes, w < STATUSLENGTH + delimiter.length) ∧
    lineEnd delimiter σ.blocks ≤ σ.blocks.length * (CMDOUTLENGTH + 1 + delimiter.length) ∧
    (σ.blocks.length * (CMDOUTLENGTH + 1 + delimiter.length)
        ≤ STATUSLENGTH + delimiter.length →
      ∀ w ∈ (updatestatus delimiter σ).writes, w < STATUSLENGTH + delimiter.length) := by
  have hle := lineEnd_le delimiter σ.blocks h
  have hdl : 0 < delimiter.length := List.length_pos.mpr hd
  have first : ∀ w ∈ (updatestatus delimiter σ).writes,
      w < lineEnd delimiter σ.blocks ∨ (lineEnd delimiter σ.blocks = 0 ∧ w = 0) := by
    intro w hw
    cases hc : checkingHalf delimiter σ.blocks ⟨σ.statustext, []⟩ 0 with
    | none =>
      rw [updatestatus_of_none delimiter σ hc] at hw
      simp at hw
    | some r =>
      rw [(updatestatus_blocks_of_some delimiter σ r hc).2.2] at hw
      have hs := checkingHalf_some delimiter σ.blocks _ 0 r hc
      simp only [List.mem_cons] at hw
      rcases hw with hw | hw
      · rw [hs.1, Nat.zero_add] at hw
        by_cases hz : lineEnd delimiter σ.blocks = 0
        · right
          rw [if_neg (by simpa using hz)] at hw
          exact ⟨hz, by omega⟩
        · left
          rw [if_pos hz] at hw
          have := lineEnd_pos delimiter σ.blocks hd hz
          omega
      · rcases hs.2.1 w hw with hw1 | hw1
        · simp at hw1
        · left; omega
  have inside : lineEnd delimiter σ.blocks ≤ STATUSLENGTH + delimiter.length →
      ∀ w ∈ (updatestatus delimiter σ).writes, w < STATUSLENGTH + delimiter.length := by
    intro hfit w hw
    rcases first w hw with h1 | h1
    · omega
    · unfold STATUSLENGTH; omega
  exact ⟨first, inside, hle, fun hfit => inside (by omega)⟩

/-- C7 (marker gating): a block with no click command puts no marker byte into the
line, whatever its `signal`. Its piece of the line is its content followed directly by
the delimiter. The updating half, entered at the top or through `goto update` at the
index where the checking scan stopped, stores exactly that piece (what is left of it
from that index on) at the offsets from `s` on and nothing else, and stores nothing
when the content is empty. In the checking half (a block on which no difference is
found), in the updating half, and for the block on which the checking half leaves
(both halves together) such a block moves `s` by content length plus
`DELIMITERLENGTH`, and by `0` when its content is empty. A block with a click command
and non-empty content moves `s` by content length plus `1` plus `DELIMITERLENGTH`,
the marker being the one byte between content and delimiter. Over a whole table, the
bytes of `statustext` from the offset where the updating begins are the pieces of the
blocks in table order, and the bytes before it are untouched. -/
theorem marker_gating (delimiter : List Nat) (b : Block) (bs : List Block) (t : Text)
    (s : Nat) :
    (b.pathc = none →
      (updateFrom delimiter b 0 t s).2.2
        = s + (if content b.curcmdout = [] then 0
                else (content b.curcmdout).length + delimiter.length) ∧
      (content b.curcmdout ≠ [] →
        s + ((content b.curcmdout).length + delimiter.length) ≤ t.bytes.length →
        (updateFrom delimiter b 0 t s).2.1.bytes
          = t.bytes.take s ++ (content b.curcmdout ++ delimiter)
              ++ t.bytes.drop (s + ((content b.curcmdout).length + delimiter.length))) ∧
      (b.curcmdout.getD (agree b.curcmdout b.prvcmdout) 0
          = b.prvcmdout.getD (agree b.curcmdout b.prvcmdout) 0 →
        checkingHalf delimiter (b :: bs) t s
          = (checkingHalf delimiter bs t
              (s + (if content b.curcmdout = [] then 0
                    else (content b.curcmdout).length + delimiter.length))).map
              (fun r => (b :: r.1, r.2))) ∧
      (updateFrom delimiter b (agree b.curcmdout b.prvcmdout) t
          (s + agree b.curcmdout b.prvcmdout)).2.2
        = s + (if content b.curcmdout = [] then 0
                else (content b.curcmdout).length + delimiter.length) ∧
      (content b.curcmdout ≠ [] →
        s + ((content b.curcmdout).length + delimiter.length) ≤ t.bytes.length →
        (updateFrom delimiter b (agree b.curcmdout b.prvcmdout) t
            (s + agree b.curcmdout b.prvcmdout)).2.1.bytes
          = t.bytes.take (s + agree b.curcmdout b.prvcmdout)
              ++ ((content b.curcmdout).drop (agree b.curcmdout b.prvcmdout) ++ delimiter)
              ++ t.bytes.drop (s + ((content b.curcmdout).length + delimiter.length))) ∧
      (content b.curcmdout = [] →
        (updateFrom delimiter b 0 t s).2.1 = t ∧
        (updateFrom delimiter b (agree b.curcmdout b.prvcmdout) t
            (s + agree b.curcmdout b.prvcmdout)).2.1 = t) ∧
      (∀ w, w ∈ (updateFrom delimiter b (agree b.curcmdout b.prvcmdout) t
            (s + agree b.curcmdout b.prvcmdout)).2.1.writes ↔
          w ∈ t.writes ∨ (s + agree b.curcmdout b.prvcmdout ≤ w ∧
            w < s + (if content b.curcmdout = [] then 0
                      else (content b.curcmdout).length + delimiter.length))) ∧
      piece delimiter b
        = (if content b.curcmdout = [] then [] else content b.curcmdout ++ delimiter)) ∧
    (b.pathc.isSome = true → content b.curcmdout ≠ [] →
      (updateFrom delimiter b 0 t s).2.2
        = s + ((content b.curcmdout).length + 1 + delimiter.length) ∧
      (b.curcmdout.getD (agree b.curcmdout b.prvcmdout) 0
          = b.prvcmdout.getD (agree b.curcmdout b.prvcmdout) 0 →
        checkingHalf delimiter (b :: bs) t s
          = (checkingHalf delimiter bs t
              (s + ((content b.curcmdout).length + 1 + delimiter.length))).map
              (fun r => (b :: r.1, r.2))) ∧
      (updateFrom delimiter b (agree b.curcmdout b.prvcmdout) t
          (s + agree b.curcmdout b.prvcmdout)).2.2
        = s + ((content b.curcmdout).length + 1 + delimiter.length) ∧
      (s + ((content b.curcmdout).length + 1 + delimiter.length) ≤ t.bytes.length →
        (updateFrom delimiter b 0 t s).2.1.bytes
          = t.bytes.take s ++ (content b.curcmdout ++ [toByte b.signal] ++ delimiter)
              ++ t.bytes.drop
                (s + ((content b.curcmdout).length + 1 + delimiter.length)))) ∧
    (∀ tbl : List Block, s + lineEnd delimiter tbl ≤ t.bytes.length →
      (updatingHalf delimiter tbl t s).2.1.bytes
          = t.bytes.take s ++ (tbl.map (piece delimiter)).flatten
              ++ t.bytes.drop (s + lineEnd delimiter tbl) ∧
      ∀ r, checkingHalf delimiter tbl t s = some r →
        ∃ e, s ≤ e ∧ e ≤ s + lineEnd delimiter tbl ∧
          r.2.1.bytes = t.bytes.take e
            ++ ((tbl.map (piece delimiter)).flatten).drop (e - s)
            ++ t.bytes.drop (s + lineEnd delimiter tbl)) := by
  have htop := updateFrom_offset delimiter b 0 t s (Nat.zero_le _)
  have hmid := updateFrom_offset delimiter b _ t s (agree_le_content b.curcmdout b.prvcmdout)
  have hale := agree_le_content b.curcmdout b.prvcmdout
  simp only [Nat.add_zero] at htop
  refine ⟨?_, ?_, ?_⟩
  · intro hp
    have hps : b.pathc.isSome = false := by simp [hp]
    have hw : width delimiter b = (if content b.curcmdout = [] then 0
        else (content b.curcmdout).length + delimiter.length) := by
      simp [width, hp]
    have hpc : piece delimiter b = (if content b.curcmdout = [] then []
        else content b.curcmdout ++ delimiter) := by
      simp [piece, hp]
    refine ⟨by rw [htop, hw], ?_, ?_, by rw [hmid, hw], ?_, ?_, ?_, hpc⟩
    · intro hc hfit
      have := updateFrom_bytes delimiter b 0 t s (Nat.zero_le _)
        (by rw [hw, if_neg hc]; exact hfit)
      simp only [List.drop_zero, Nat.sub_zero] at this
      rw [this, hw, hpc, if_neg hc, if_neg hc]
    · intro hsame
      have hlen := agree_eq_content _ _ hsame
      rw [checkingHalf, if_neg (by simpa using hsame)]
      by_cases hc : content b.curcmdout = []
      · have h0 : agree b.curcmdout b.prvcmdout = 0 := by rw [hlen, hc]; rfl
        rw [if_pos h0, if_pos hc, h0]
      · have h0 : ¬ agree b.curcmdout b.prvcmdout = 0 := by
          rw [hlen]; rwa [content_eq_nil_iff] at hc
        rw [if_neg h0, if_neg hc, hlen]
        simp [hp, Nat.add_assoc]
    · intro hc hfit
      have hwc : width delimiter b = (content b.curcmdout).length + delimiter.length := by
        rw [hw, if_neg hc]
      have := updateFrom_bytes delimiter b _ t (s + agree b.curcmdout b.prvcmdout) hale
        (by rw [hwc]; omega)
      rw [this, piece_drop delimiter b _ hale hc, hwc]
      simp only [hps, Bool.false_eq_true, if_false]
      have e : s + agree b.curcmdout b.prvcmdout
          + ((content b.curcmdout).length + delimiter.length - agree b.curcmdout b.prvcmdout)
          = s + ((content b.curcmdout).length + delimiter.length) := by omega
      rw [e]
    · intro hc
      have h0 : agree b.curcmdout b.prvcmdout = 0 := by
        rw [hc] at hale; simpa using hale
      rw [h0]
      exact ⟨updateFrom_text_of_empty delimiter b t s hc,
        updateFrom_text_of_empty delimiter b t (s + 0) hc⟩
    · intro w
      rw [updateFrom_writes, hmid, hw]
  · intro hp hc
    have hw : width delimiter b = (content b.curcmdout).length + 1 + delimiter.length := by
      simp [width, hp, hc]
    refine ⟨by rw [htop, hw], ?_, by rw [hmid, hw], ?_⟩
    · intro hsame
      have hlen := agree_eq_content _ _ hsame
      have h0 : ¬ agree b.curcmdout b.prvcmdout = 0 := by
        rw [hlen]; exact fun h => hc ((content_eq_nil_iff _).mpr h)
      rw [checkingHalf, if_neg (by simpa using hsame), if_neg h0, if_pos hp, hlen]
      simp [Nat.add_assoc]
    · intro hfit
      have := updateFrom_bytes delimiter b 0 t s (Nat.zero_le _)
        (by rw [hw]; exact hfit)
      simp only [List.drop_zero, Nat.sub_zero] at this
      rw [this, hw]
      simp [piece, hc, hp]
  · intro tbl hfit
    exact ⟨updatingHalf_bytes delimiter tbl t s hfit,
      fun r hr => checkingHalf_bytes delimiter tbl t s r hr hfit⟩

/-! ## Claims about `updateblock` -/

/-- C4 (truncation), as amended: for every output longer than `CMDOUTLENGTH` bytes and
every way the pipe hands it over, the read loop ends, with exactly the first
`CMDOUTLENGTH` bytes of the output in `curcmdout[0..CMDOUTLENGTH-1]` and the bytes from
index `CMDOUTLENGTH` on as they were; with a NUL at index `CMDOUTLENGTH` the block's
content is those first `CMDOUTLENGTH` bytes cut at the first newline or NUL among them. -/
theorem updateblock_truncates (sched out : List Nat) (b : Block)
    (hlong : CMDOUTLENGTH < out.length)
    (hbuf : b.curcmdout.length = CMDOUTLENGTH + 1) :
    ∃ b1, updateblock sched out b = some b1 ∧
      b1 = { b with curcmdout := b1.curcmdout } ∧
      b1.curcmdout.length = CMDOUTLENGTH + 1 ∧
      b1.curcmdout.take CMDOUTLENGTH = out.take CMDOUTLENGTH ∧
      b1.curcmdout.drop CMDOUTLENGTH = b.curcmdout.drop CMDOUTLENGTH ∧
      (b.curcmdout.getD CMDOUTLENGTH 1 = 0 →
        b1.curcmdout.getD CMDOUTLENGTH 1 = 0 ∧
        content b1.curcmdout = content (out.take CMDOUTLENGTH)) := by
  have hmin : min CMDOUTLENGTH out.length = CMDOUTLENGTH := by omega
  have hl : (out.take CMDOUTLENGTH).length = CMDOUTLENGTH := by simp; omega
  refine ⟨_, updateblock_eq sched out b (by omega), rfl, ?_, ?_, ?_, ?_⟩
  · simp only [hmin, List.length_append, List.length_drop, hl, hbuf]
    omega
  · simp only [hmin]
    exact List.take_left' hl
  · simp only [hmin]
    exact List.drop_left' hl
  · intro hnul
    simp only [hmin]
    refine ⟨?_, content_append_of_nil _ _ (content_drop_of_getD _ _ hnul)⟩
    rw [List.getD_append_right _ _ _ _ (by rw [hl]), hl]
    simpa using hnul

/-- An output that carries its own end is captured clean: when the first
`CMDOUTLENGTH` bytes of the output `o` hold a newline or NUL, or `o` has at least
`CMDOUTLENGTH` bytes, then whatever `curcmdout` held before (with its NUL at index
`CMDOUTLENGTH`) and however the pipe hands `o` over, after `updateblock` the content
of the block is `o` truncated to `CMDOUTLENGTH` bytes and cut at its first newline or
NUL. -/
theorem updateblock_content (sched out : List Nat) (b : Block)
    (hbuf : b.curcmdout.length = CMDOUTLENGTH + 1)
    (hnul : b.curcmdout.getD CMDOUTLENGTH 1 = 0)
    (hout : (content (out.take CMDOUTLENGTH)).length < (out.take CMDOUTLENGTH).length
      ∨ CMDOUTLENGTH ≤ out.length) :
    ∃ b1, updateblock sched out b = some b1 ∧
      content b1.curcmdout = content (out.take CMDOUTLENGTH) := by
  refine ⟨_, updateblock_eq sched out b (by omega), ?_⟩
  simp only
  rcases hout with h | h
  · exact content_append_of_term _ _ h
  · have hmin : min CMDOUTLENGTH out.length = CMDOUTLENGTH := by omega
    rw [hmin]
    exact content_append_of_nil _ _ (content_drop_of_getD _ _ hnul)

/-! ## The schedule of `statusloop` -/

theorem firstRun_mem (bs : List Block) (k0 k : Nat) (v : Int) :
    (k, v) ∈ firstRun bs k0 ↔
      ∃ b, k0 ≤ k ∧ bs[k - k0]? = some b ∧ v = NILL ∧ 0 ≤ b.interval := by
  induction bs generalizing k0 with
  | nil => simp [firstRun]
  | cons x xs ih =>
    have step : (k, v) ∈ firstRun xs (k0 + 1) ↔
        ∃ b, k0 + 1 ≤ k ∧ (x :: xs)[k - k0]? = some b ∧ v = NILL ∧ 0 ≤ b.interval := by
      rw [ih]
      constructor
      · rintro ⟨b, h1, h2, h3⟩
        refine ⟨b, h1, ?_, h3⟩
        have e : k - k0 = (k - (k0 + 1)) + 1 := by omega
        rw [e, List.getElem?_cons_succ]; exact h2
      · rintro ⟨b, h1, h2, h3⟩
        refine ⟨b, h1, ?_, h3⟩
        have e : k - k0 = (k - (k0 + 1)) + 1 := by omega
        rw [e, List.getElem?_cons_succ] at h2; exact h2
    simp only [firstRun]
    split
    · rename_i hx
      rw [List.mem_cons, step]
      constructor
      · rintro (h | ⟨b, h1, h2⟩)
        · simp only [Prod.mk.injEq] at h
          exact ⟨x, by omega, by rw [h.1]; simp, h.2, hx⟩
        · exact ⟨b, by omega, h2⟩
      · rintro ⟨b, h1, h2, h3, h4⟩
        by_cases hk : k = k0
        · left; rw [hk, h3]
        · right; exact ⟨b, by omega, h2, h3, h4⟩
    · rename_i hx
      rw [step]
      constructor
      · rintro ⟨b, h1, h2⟩
        exact ⟨b, by omega, h2⟩
      · rintro ⟨b, h1, h2, h3, h4⟩
        by_cases hk : k = k0
        · exfalso
          rw [hk] at h2
          simp at h2
          rw [← h2] at h4
          exact hx h4
        · exact ⟨b, by omega, h2, h3, h4⟩

theorem mainPass_mem (i : Int) (bs : List Block) (k0 k : Nat) (v : Int) :
    (k, v) ∈ mainPass i bs k0 ↔
      ∃ b, k0 ≤ k ∧ bs[k - k0]? = some b ∧ v = NILL ∧
        (0 < b.interval ∧ Int.tmod i b.interval = 0) := by
  induction bs generalizing k0 with
  | nil => simp [mainPass]
  | cons x xs ih =>
    have step : (k, v) ∈ mainPass i xs (k0 + 1) ↔
        ∃ b, k0 + 1 ≤ k ∧ (x :: xs)[k - k0]? = some b ∧ v = NILL ∧
          (0 < b.interval ∧ Int.tmod i b.interval = 0) := by
      rw [ih]
      constructor
      · rintro ⟨b, h1, h2, h3⟩
        refine ⟨b, h1, ?_, h3⟩
        have e : k - k0 = (k - (k0 + 1)) + 1 := by omega
        rw [e, List.getElem?_cons_succ]; exact h2
      · rintro ⟨b, h1, h2, h3⟩
        refine ⟨b, h1, ?_, h3⟩
        have e : k - k0 = (k - (k0 + 1)) + 1 := by omega
        rw [e, List.getElem?_cons_succ] at h2; exact h2
    simp only [mainPass]
    split
    · rename_i hx
      rw [List.mem_cons, step]
      constructor
      · rintro (h | ⟨b, h1, h2⟩)
        · simp only [Prod.mk.injEq] at h
          exact ⟨x, by omega, by rw [h.1]; simp, h.2, hx⟩
        · exact ⟨b, by omega, h2⟩
      · rintro ⟨b, h1, h2, h3, h4⟩
        by_cases hk : k = k0
        · left; rw [hk, h3]
        · right; exact ⟨b, by omega, h2, h3, h4⟩
    · rename_i hx
      rw [step]
      constructor
      · rintro ⟨b, h1, h2⟩
        exact ⟨b, by omega, h2⟩
      · rintro ⟨b, h1, h2, h3, h4⟩
        by_cases hk : k = k0
        · exfalso
          rw [hk] at h2
          simp at h2
          rw [← h2] at h4
          exact hx h4
        · exact ⟨b, by omega, h2, h3, h4⟩

theorem firstRun_lower (bs : List Block) (k0 : Nat) :
    ∀ p ∈ firstRun bs k0, k0 ≤ p.1 := by
  intro p hp
  obtain ⟨b, h, _⟩ := (firstRun_mem bs k0 p.1 p.2).mp hp
  exact h

theorem mainPass_lower (i : Int) (bs : List Block) (k0 : Nat) :
    ∀ p ∈ mainPass i bs k0, k0 ≤ p.1 := by
  intro p hp
  obtain ⟨b, h, _⟩ := (mainPass_mem i bs k0 p.1 p.2).mp hp
  exact h

theorem firstRun_sorted (bs : List Block) (k0 : Nat) :
    List.Pairwise (fun p q : Nat × Int => p.1 < q.1) (firstRun bs k0) := by
  induction bs generalizing k0 with
  | nil => simp [firstRun]
  | cons x xs ih =>
    simp only [firstRun]
    split
    · rw [List.pairwise_cons]
      refine ⟨fun q hq => ?_, ih _⟩
      have := firstRun_lower xs (k0 + 1) q hq
      simp only; omega
    · exact ih _

theorem mainPass_sorted (i : Int) (bs : List Block) (k0 : Nat) :
    List.Pairwise (fun p q : Nat × Int => p.1 < q.1) (mainPass i bs k0) := by
  induction bs generalizing k0 with
  | nil => simp [mainPass]
  | cons x xs ih =>
    simp only [mainPass]
    split
    · rw [List.pairwise_cons]
      refine ⟨fun q hq => ?_, ih _⟩
      have := mainPass_lower i xs (k0 + 1) q hq
      simp only; omega
    · exact ih _

theorem counter_eq_wrap (n : Nat) : counter n = wrapInt ((n : Int) + 1) := by
  induction n with
  | zero => decide
  | succ k ih =>
    rw [counter, ih]
    unfold wrapInt
    push_cast
    omega

/-- Up to `INT_MAX` the counter is the number of the pass. -/
theorem counter_eq (n : Nat) (h : n + 1 ≤ 2147483647) : counter n = (n : Int) + 1 := by
  rw [counter_eq_wrap]
  unfold wrapInt
  omega

/-- Membership in the calls of one pass. -/
theorem statusloop_mem (blocks : List Block) (n k : Nat) (v : Int) :
    (k, v) ∈ statusloop blocks n ↔
      ∃ b, blocks[k]? = some b ∧ v = NILL ∧
        ((n = 0 ∧ 0 ≤ b.interval) ∨
          (1 ≤ n ∧ 0 < b.interval ∧ Int.tmod (counter (n - 1)) b.interval = 0)) := by
  cases n with
  | zero =>
    constructor
    · intro h
      obtain ⟨b, _, h1, h2, h3⟩ := (firstRun_mem blocks 0 k v).mp h
      exact ⟨b, by simpa using h1, h2, Or.inl ⟨rfl, h3⟩⟩
    · rintro ⟨b, h1, h2, h3 | h3⟩
      · exact (firstRun_mem blocks 0 k v).mpr ⟨b, Nat.zero_le _, by simpa using h1, h2, h3.2⟩
      · omega
  | succ n =>
    constructor
    · intro h
      obtain ⟨b, _, h1, h2, h3, h4⟩ := (mainPass_mem _ blocks 0 k v).mp h
      exact ⟨b, by simpa using h1, h2, Or.inr ⟨by omega, h3, by simpa using h4⟩⟩
    · rintro ⟨b, h1, h2, h3 | h3⟩
      · omega
      · exact (mainPass_mem _ blocks 0 k v).mpr
          ⟨b, Nat.zero_le _, by simpa using h1, h2, h3.2.1, by simpa using h3.2.2⟩

/-- Membership in the calls of a pass whose number the counter can hold. -/
theorem statusloop_mem_small (blocks : List Block) (n k : Nat) (v : Int)
    (hn : n ≤ 2147483647) :
    (k, v) ∈ statusloop blocks n ↔
      ∃ b, blocks[k]? = some b ∧ v = NILL ∧
        ((n = 0 ∧ 0 ≤ b.interval) ∨
          (1 ≤ n ∧ 0 < b.interval ∧ (n : Int) % b.interval = 0)) := by
  rw [statusloop_mem]
  constructor
  · rintro ⟨b, h1, h2, h3 | h3⟩
    · exact ⟨b, h1, h2, Or.inl h3⟩
    · refine ⟨b, h1, h2, Or.inr ⟨h3.1, h3.2.1, ?_⟩⟩
      have hc := counter_eq (n - 1) (by omega)
      have h4 := h3.2.2
      rw [hc, Int.tmod_eq_emod (by omega) (by omega)] at h4
      have e : ((n - 1 : Nat) : Int) + 1 = (n : Int) := by omega
      rw [e] at h4; exact h4
  · rintro ⟨b, h1, h2, h3 | h3⟩
    · exact ⟨b, h1, h2, Or.inl h3⟩
    · refine ⟨b, h1, h2, Or.inr ⟨h3.1, h3.2.1, ?_⟩⟩
      have hc := counter_eq (n - 1) (by omega)
      rw [hc, Int.tmod_eq_emod (by omega) (by omega)]
      have e : ((n - 1 : Nat) : Int) + 1 = (n : Int) := by omega
      rw [e]; exact h3.2.2

/-- C6 (schedule of automatic runs), as amended: in every pass `statusloop` hands
blocks to `updateblock` in table order, each at most once, always with `NILL` as
`sigval`. In pass `0` these are exactly the blocks with `interval >= 0`; in pass `n`
with `1 <= n <= INT_MAX` exactly those with `interval > 0` and `n mod interval = 0`.
A block with `interval < 0` is in no pass, a block with `interval = 0` is in pass `0`
only, and a block with `interval = N > 0` is, among the passes up to `INT_MAX`, in
exactly those whose number is a multiple of `N`. -/
theorem statusloop_schedule (blocks : List Block) (n : Nat) :
    List.Pairwise (fun p q : Nat × Int => p.1 < q.1) (statusloop blocks n) ∧
    (∀ k v, (k, v) ∈ statusloop blocks n → v = NILL) ∧
    (n ≤ 2147483647 → ∀ k v, (k, v) ∈ statusloop blocks n ↔
      ∃ b, blocks[k]? = some b ∧ v = NILL ∧
        ((n = 0 ∧ 0 ≤ b.interval) ∨
          (1 ≤ n ∧ 0 < b.interval ∧ (n : Int) % b.interval = 0))) ∧
    (∀ k b, blocks[k]? = some b → b.interval < 0 → ∀ v, (k, v) ∉ statusloop blocks n) ∧
    (∀ k b, blocks[k]? = some b → b.interval = 0 →
      ((k, NILL) ∈ statusloop blocks n ↔ n = 0)) ∧
    (n ≤ 2147483647 → ∀ k b, blocks[k]? = some b → 0 < b.interval →
      ((k, NILL) ∈ statusloop blocks n ↔ b.interval ∣ (n : Int))) := by
  refine ⟨?_, ?_, fun hn k v => statusloop_mem_small blocks n k v hn, ?_, ?_, ?_⟩
  · cases n with
    | zero => exact firstRun_sorted blocks 0
    | succ n => exact mainPass_sorted _ blocks 0
  · intro k v hmem
    obtain ⟨b1, _, h2, _⟩ := (statusloop_mem blocks n k v).mp hmem
    exact h2
  · intro k b hk hb v hmem
    obtain ⟨b1, h1, _, h3⟩ := (statusloop_mem blocks n k v).mp hmem
    rw [hk] at h1
    cases h1
    omega
  · intro k b hk hb
    rw [statusloop_mem]
    constructor
    · rintro ⟨b1, h1, _, h3⟩
      rw [hk] at h1
      cases h1
      omega
    · intro hn
      exact ⟨b, hk, rfl, Or.inl ⟨hn, by omega⟩⟩
  · intro hn k b hk hb
    rw [statusloop_mem_small blocks n k NILL hn]
    constructor
    · rintro ⟨b1, h1, _, h3⟩
      rw [hk] at h1
      cases h1
      rcases h3 with h3 | h3
      · rw [h3.1]; simp
      · exact Int.dvd_of_emod_eq_zero h3.2.2
    · intro hdvd
      refine ⟨b, hk, rfl, ?_⟩
      by_cases hn0 : n = 0
      · exact Or.inl ⟨hn0, by omega⟩
      · exact Or.inr ⟨by omega, hb, Int.emod_eq_zero_of_dvd hdvd⟩

/-! ## Click dispatch -/

theorem buttonhandler_eq_filter (blocks : List Block) (sival : Int) :
    buttonhandler blocks sival
      = (blocks.filter (fun blk => blk.signal = sival >>> 8)).map
          (fun blk => ⟨blk.pathc, [toByte (48 + sival % 256), 0]⟩) := by
  induction blocks with
  | nil => rfl
  | cons x xs ih =>
    simp only [buttonhandler, List.filter_cons]
    split
    · rename_i h
      simp [h, ih]
    · rename_i h
      simp [h, ih]

theorem packed_eq (s b : Nat) (hb : b ≤ 255) : (s <<< 8 ||| b) = 256 * s + b := by
  have h := Nat.mul_add_lt_is_or (i := 8) (b := b) (by omega) s
  rw [Nat.shiftLeft_eq, Nat.mul_comm s (2 ^ 8), ← h]

/-- C8 (click dispatch), as amended: for every slot `s` and every button number
`b` from `0` to `9`, a click carrying `(s << 8) | b` makes `buttonhandler` fork one
child for each block whose `signal` equals `s`, and for no other block; the child
calls `execv` on the block's `pathc` with the one argument `button`, and `button` is
`b` written as a number. -/
theorem buttonhandler_dispatch (blocks : List Block) (s b : Nat) (hb : b ≤ 9) :
    buttonhandler blocks ((s <<< 8 ||| b : Nat) : Int)
      = (blocks.filter (fun blk => blk.signal = (s : Int))).map
          (fun blk => ⟨blk.pathc, [48 + b, 0]⟩) ∧
    cstring [48 + b, 0] = decimal b := by
  constructor
  · rw [buttonhandler_eq_filter, packed_eq s b (by omega)]
    have e1 : ((256 * s + b : Nat) : Int) >>> 8 = (s : Int) := by
      have e0 : ((256 * s + b : Nat) : Int) >>> 8
          = (((256 * s + b) >>> 8 : Nat) : Int) := rfl
      rw [e0, Nat.shiftRight_eq_div_pow]
      have : (256 * s + b) / 2 ^ 8 = s := by omega
      rw [this]
    have e2 : toByte (48 + ((256 * s + b : Nat) : Int) % 256) = 48 + b := by
      unfold toByte
      omega
    rw [e1, e2]
  · interval_cases b <;> decide

/-! ## Concrete runs -/

/-- C1 (delimiter placement) fails on this run. Tick 0: the first block prints `"x\n"`,
the second prints nothing; `updatestatus` returns `1` and publishes `"x"`. Tick 1:
the second block prints `"y\n"`; `updatestatus` returns `1`, but the published line is
still `"x"`, while the reference assembly of the current contents is `"x | y"`: the
NUL that ended the earlier line sits in the first byte of the delimiter that the
checking half skips over. -/
theorem stale_nul_hides_later_block :
    ∃ σ1 σ2 σ3,
      runBlock 0 [] [120, 10] twoBlocks = some σ1 ∧
      runBlock 1 [] [] σ1 = some σ2 ∧
      (updatestatus barDelimiter σ2).ret = 1 ∧
      published (updatestatus barDelimiter σ2).state.statustext = [120] ∧
      assembly barDelimiter (updatestatus barDelimiter σ2).state.blocks = [120] ∧
      runBlock 1 [] [121, 10] (updatestatus barDelimiter σ2).state = some σ3 ∧
      (updatestatus barDelimiter σ3).ret = 1 ∧
      published (updatestatus barDelimiter σ3).state.statustext = [120] ∧
      (updatestatus barDelimiter σ3).state.statustext.take 9
        = [120, 0, 124, 32, 121, 0, 124, 32, 0] ∧
      assembly barDelimiter (updatestatus barDelimiter σ3).state.blocks
        = [120, 32, 124, 32, 121] :=
  ⟨_, _, _, rfl, rfl, by decide, by decide, by decide, rfl, by decide, by decide,
    by decide, by decide⟩

/-- C4 as stated fails: for an output of 62 bytes whose second byte is NUL and that has
no newline, the buffer gets its first `CMDOUTLENGTH` bytes, but the content of the
block is the single byte before the NUL, not those `CMDOUTLENGTH` bytes. -/
theorem truncation_cut_at_nul :
    CMDOUTLENGTH < longOutput.length ∧
    (∀ c ∈ longOutput.take CMDOUTLENGTH, c ≠ 10) ∧
    ∃ b1, updateblock [] longOutput (freshBlock "/bin/first" none 0 0) = some b1 ∧
      b1.curcmdout.take CMDOUTLENGTH = longOutput.take CMDOUTLENGTH ∧
      content b1.curcmdout = [97] ∧
      content b1.curcmdout ≠ longOutput.take CMDOUTLENGTH :=
  ⟨by decide, by decide, _, rfl, by decide, by decide, by decide⟩

/-- C5 (current output is the most recent capture) fails on this input. The block's
last capture was `"hello\n"`; the command now prints `"hi"`, two bytes and no newline.
`updateblock` stores the two bytes and no terminator, so the buffer reads `"hillo\n"`
and the content of the block is `"hillo"`, not `"hi"`. On a buffer that is still all
zero the same output gives the content `"hi"`: the result depends on what the buffer
held before the run. -/
theorem capture_keeps_stale_tail :
    content helloBlock.curcmdout = [104, 101, 108, 108, 111] ∧
    (∃ b1, updateblock [] [104, 105] helloBlock = some b1 ∧
      b1.curcmdout.take 7 = [104, 105, 108, 108, 111, 10, 0] ∧
      content b1.curcmdout = [104, 105, 108, 108, 111] ∧
      content b1.curcmdout ≠ ([104, 105].take CMDOUTLENGTH).takeWhile (fun c => c ≠ 10)) ∧
    (∃ b2, updateblock [] [104, 105] (freshBlock "/bin/first" none 1 0) = some b2 ∧
      content b2.curcmdout = [104, 105]) :=
  ⟨by decide, ⟨_, rfl, by decide, by decide, by decide⟩, ⟨_, rfl, by decide⟩⟩

/-- C8 as stated fails for button number `10`: the argument is the one character
`':'`, not `"10"`. -/
theorem button_ten_is_colon :
    buttonhandler volTable ((3 <<< 8 ||| 10 : Nat) : Int) = [⟨some "vol.sh", [58, 0]⟩] ∧
    cstring [58, 0] = [58] ∧ decimal 10 = [49, 48] ∧ cstring [58, 0] ≠ decimal 10 := by
  decide

/-- C9 fails on this input: slot `3` is a block without a click command, and a click
with payload `(3 << 8) | 1` still makes `buttonhandler` fork a child for it, which
calls `execv` with a `NULL` path. -/
theorem click_without_command_forks :
    (∀ b ∈ plainTable, b.pathc = none) ∧
    buttonhandler plainTable ((3 <<< 8 ||| 1 : Nat) : Int) = [⟨none, [49, 0]⟩] := by
  decide

/-- C6 as stated fails past `INT_MAX`: pass number `2147483649` is a multiple of `3`,
but by then the `int` counter has wrapped to `-2147483647`, whose remainder by `3` is
not `0`, and the block with interval `3` is not run. -/
theorem schedule_breaks_after_int_max :
    (3 : Int) ∣ ((2147483649 : Nat) : Int) ∧
    counter 2147483648 = -2147483647 ∧
    statusloop thirdsTable 2147483649 = [] := by
  have hc : counter 2147483648 = -2147483647 := by
    rw [counter_eq_wrap]; decide
  refine ⟨by decide, hc, ?_⟩
  show mainPass (counter 2147483648) thirdsTable 0 = []
  rw [hc]
  decide

/-! ## Instances of the general theorems -/

theorem updatestatus_noop_witness :
    (∀ b ∈ settled.blocks, AgreesThrough b) ∧
    updatestatus barDelimiter settled = ⟨0, settled, []⟩ :=
  ⟨by decide, updatestatus_noop barDelimiter settled (by decide)⟩

theorem updatestatus_commit_witness :
    (∀ b ∈ pending.blocks, Terminated b) ∧
    (updatestatus barDelimiter pending).ret = 1 ∧
    (∀ b ∈ (updatestatus barDelimiter pending).state.blocks, AgreesThrough b) ∧
    (updatestatus barDelimiter (updatestatus barDelimiter pending).state).ret = 0 :=
  ⟨by decide, by decide,
    (updatestatus_commit barDelimiter pending (by decide)).2.1,
    (updatestatus_commit barDelimiter pending (by decide)).2.2⟩

theorem updatestatus_writes_bound_witness :
    barDelimiter ≠ [] ∧
    (∀ b ∈ pending.blocks, b.curcmdout.getD CMDOUTLENGTH 1 = 0) ∧
    lineEnd barDelimiter pending.blocks = 12 ∧
    (updatestatus barDelimiter pending).writes = [9, 11, 10, 9, 8, 7, 6, 5, 4, 3, 2, 1] ∧
    pending.blocks.length * (CMDOUTLENGTH + 1 + barDelimiter.length)
      ≤ STATUSLENGTH + barDelimiter.length ∧
    (∀ w ∈ (updatestatus barDelimiter pending).writes,
      w < STATUSLENGTH + barDelimiter.length) :=
  ⟨by decide, by decide, by decide, by decide, by decide,
    (updatestatus_writes_bound barDelimiter pending (by decide) (by decide)).2.2.2
      (by decide)⟩

theorem marker_gating_witness :
    plainBlock.pathc = none ∧ plainBlock.signal = 7 ∧
    (updateFrom barDelimiter plainBlock 0 ⟨List.replicate 8 1, []⟩ 2).2.1.bytes
      = [1, 1, 104, 105, 32, 124, 32, 1] ∧
    (updateFrom barDelimiter plainBlock 0 ⟨List.replicate 8 1, []⟩ 2).2.2 = 7 ∧
    changedBlock.pathc = none ∧ changedBlock.signal = 7 ∧
    agree changedBlock.curcmdout changedBlock.prvcmdout = 4 ∧
    (updateFrom barDelimiter changedBlock
        (agree changedBlock.curcmdout changedBlock.prvcmdout) memLine
        (0 + agree changedBlock.curcmdout changedBlock.prvcmdout)).2.1.bytes
      = [77, 69, 77, 58, 54, 48, 37, 32, 124, 32, 1, 1] ∧
    (∀ r, checkingHalf barDelimiter [changedBlock] memLine 0 = some r →
      ∃ e, 0 ≤ e ∧ e ≤ 0 + lineEnd barDelimiter [changedBlock] ∧
        r.2.1.bytes = memLine.bytes.take e
          ++ (([changedBlock].map (piece barDelimiter)).flatten).drop (e - 0)
          ++ memLine.bytes.drop (0 + lineEnd barDelimiter [changedBlock])) ∧
    ([changedBlock].map (piece barDelimiter)).flatten
      = [77, 69, 77, 58, 54, 48, 37, 32, 124, 32] ∧
    clickBlock.pathc.isSome = true ∧
    (updateFrom barDelimiter clickBlock 0 ⟨List.replicate 8 1, []⟩ 2).2.2 = 8 :=
  ⟨rfl, rfl,
    ((marker_gating barDelimiter plainBlock [] ⟨List.replicate 8 1, []⟩ 2).1 rfl).2.1
      (by decide) (by decide),
    ((marker_gating barDelimiter plainBlock [] ⟨List.replicate 8 1, []⟩ 2).1 rfl).1,
    rfl, rfl, by decide,
    (((marker_gating barDelimiter changedBlock [] memLine 0).1 rfl).2.2.2.2.1
      (by decide) (by decide)).trans (by decide),
    ((marker_gating barDelimiter changedBlock [] memLine 0).2.2 [changedBlock]
      (by decide)).2,
    by decide,
    rfl,
    ((marker_gating barDelimiter clickBlock [] ⟨List.replicate 8 1, []⟩ 2).2.1 rfl
      (by decide)).1⟩

theorem updateblock_truncates_witness :
    CMDOUTLENGTH < longOutput.length ∧
    ∃ b1, updateblock [7, 1, 50] longOutput helloBlock = some b1 ∧
      b1.curcmdout.take CMDOUTLENGTH = longOutput.take CMDOUTLENGTH ∧
      b1.curcmdout.drop CMDOUTLENGTH = [0] ∧
      content b1.curcmdout = [97] := by
  obtain ⟨b1, h1, _, _, h4, h5, h6⟩ :=
    updateblock_truncates [7, 1, 50] longOutput helloBlock (by decide) (by decide)
  exact ⟨by decide, b1, h1, h4, by rw [h5]; decide, by rw [(h6 (by decide)).2]; decide⟩

theorem statusloop_schedule_witness :
    statusloop mixedTable 0 = [(1, NILL), (2, NILL)] ∧
    statusloop mixedTable 3 = [] ∧
    statusloop mixedTable 10 = [(2, NILL)] ∧
    (∀ v, (0, v) ∉ statusloop mixedTable 10) ∧
    ((1, NILL) ∈ statusloop mixedTable 10 ↔ 10 = 0) ∧
    (10 : Nat) ≤ 2147483647 ∧
    ((2, NILL) ∈ statusloop mixedTable 10 ↔ (5 : Int) ∣ ((10 : Nat) : Int)) :=
  ⟨by decide, by decide, by decide,
    (statusloop_schedule mixedTable 10).2.2.2.1 0 _ rfl (by decide),
    (statusloop_schedule mixedTable 10).2.2.2.2.1 1 _ rfl rfl,
    by decide,
    (statusloop_schedule mixedTable 10).2.2.2.2.2 (by decide) 2 _ rfl (by decide)⟩

theorem buttonhandler_dispatch_witness :
    (2 : Nat) ≤ 9 ∧
    buttonhandler volTable ((3 <<< 8 ||| 2 : Nat) : Int) = [⟨some "vol.sh", [50, 0]⟩] ∧
    cstring [50, 0] = decimal 2 ∧ decimal 2 = [50] :=
  ⟨by decide, (buttonhandler_dispatch volTable 3 2 (by decide)).1,
    (buttonhandler_dispatch volTable 3 2 (by decide)).2, by decide⟩

end Dwmblocks
